import Mathlib

/-!
Shallow embedding of the process-scheduling simulator
(`src/process_gen.py`, `src/schedulers/{fcfs,sjf,rr}.py`, `src/cpu.py`).

Processes are mutable records held in a store (the core's process list);
scheduler queues hold indices into that store, mirroring the Python object
references.  The core tick loop is modelled with fuel equal to the
simulation time bound, which is exact because every iteration advances
time by one unit.
-/

namespace ProcSim

/-- One schedulable unit of work, from `Process.__init__` in
`src/process_gen.py`.  `priority`, `waiting_time` and `turnaround_time`
play no role in the engine and are omitted. -/
structure Process where
  pid : Int
  arrival_time : Nat
  burst_time : Nat
  remaining_time : Nat
  start_time : Option Nat
  completion_time : Option Nat
  deriving Repr, DecidableEq

/-- `Process(pid, arrival, burst)`: fresh record with
`remaining_time = burst_time` and unset timestamps. -/
def mkProcess (pid : Int) (arrival burst : Nat) : Process :=
  ⟨pid, arrival, burst, burst, none, none⟩

/-- The owning core's process list; scheduler queues reference it by index. -/
abbrev Store := List Process

/-- Placeholder for out-of-range lookups (never ready: `remaining_time = 0`). -/
def dfltProcess : Process := ⟨-1, 0, 0, 0, none, none⟩

/-- Dereference an index into the store. -/
def getP (store : Store) (i : Nat) : Process := store.getD i dfltProcess

/-- "Arrived and has work": `arrival_time ≤ current_time and remaining_time > 0`,
the guard every scheduler uses. -/
def ready (store : Store) (t : Nat) (i : Nat) : Prop :=
  (getP store i).arrival_time ≤ t ∧ 0 < (getP store i).remaining_time

instance (store : Store) (t i : Nat) : Decidable (ready store t i) := by
  unfold ready; infer_instance

/-- Boolean form of `ready` for queue scans. -/
def readyB (store : Store) (t : Nat) (i : Nat) : Bool := decide (ready store t i)

/-- A scheduling policy's capability set (`src/schedulers/base.py`):
`add_process` and `get_next_process`, both reading the live store and
threading the scheduler's private state. -/
structure Scheduler (σ : Type) where
  addProcess : Store → σ → Nat → σ
  getNext : Store → σ → Nat → Option Nat × σ

/-! ### FCFS (`src/schedulers/fcfs.py`) -/

/-- FCFS private state: arrival-sorted queue plus the pid dedup set. -/
structure FCFS where
  queue : List Nat
  processed_pids : List Int
  deriving Repr

/-- Queue order used by `self.queue.sort(key=lambda p: p.arrival_time)`. -/
def arrLe (store : Store) (i j : Nat) : Prop :=
  (getP store i).arrival_time ≤ (getP store j).arrival_time

instance (store : Store) : DecidableRel (arrLe store) :=
  fun i j => Nat.decLe _ _

/-- `FCFS.add_process`: append when the pid is new, then re-sort (stably)
by arrival time; `List.insertionSort` is stable, like Python's sort. -/
def FCFS.add_process (store : Store) (s : FCFS) (i : Nat) : FCFS :=
  if (getP store i).pid ∈ s.processed_pids then s
  else ⟨List.insertionSort (arrLe store) (s.queue ++ [i]),
        (getP store i).pid :: s.processed_pids⟩

/-- `FCFS.get_next_process`: first queued process that has arrived and has
remaining time; the queue is not mutated. -/
def FCFS.get_next_process (store : Store) (s : FCFS) (t : Nat) :
    Option Nat × FCFS :=
  (s.queue.find? (readyB store t), s)

def fcfsScheduler : Scheduler FCFS :=
  ⟨FCFS.add_process, FCFS.get_next_process⟩

def fcfsInit : FCFS := ⟨[], []⟩

/-! ### SJF (`src/schedulers/sjf.py`) -/

/-- SJF private state: admission-ordered queue plus the pid dedup set. -/
structure SJF where
  queue : List Nat
  processed_pids : List Int
  deriving Repr

/-- `SJF.add_process`: append when the pid is new. -/
def SJF.add_process (store : Store) (s : SJF) (i : Nat) : SJF :=
  if (getP store i).pid ∈ s.processed_pids then s
  else ⟨s.queue ++ [i], (getP store i).pid :: s.processed_pids⟩

/-- Python's `min(l, key)`: first element attaining the minimum key,
`none` on the empty list. -/
def pyMin (key : Nat → Nat) (l : List Nat) : Option Nat :=
  l.foldl
    (fun acc x =>
      match acc with
      | none => some x
      | some m => if key x < key m then some x else some m)
    none

/-- `SJF.get_next_process`: minimum `remaining_time` among ready queue
members (ties: first in queue, i.e. Python `min` semantics). -/
def SJF.get_next_process (store : Store) (s : SJF) (t : Nat) :
    Option Nat × SJF :=
  (pyMin (fun i => (getP store i).remaining_time)
    (s.queue.filter (readyB store t)), s)

def sjfScheduler : Scheduler SJF :=
  ⟨SJF.add_process, SJF.get_next_process⟩

def sjfInit : SJF := ⟨[], []⟩

/-! ### RoundRobin (`src/schedulers/rr.py`) -/

/-- RoundRobin private state: rotation deque, quantum, pid dedup set,
running slot and its per-slice counter. -/
structure RoundRobin where
  queue : List Nat
  quantum : Int
  processed_pids : List Int
  current_process : Option Nat
  current_runtime : Int
  deriving Repr

/-- `RoundRobin(quantum)` constructor. -/
def rrInit (quantum : Int) : RoundRobin := ⟨[], quantum, [], none, 0⟩

/-- `RoundRobin.add_process`: append to the rotation when the pid is new. -/
def RoundRobin.add_process (store : Store) (s : RoundRobin) (i : Nat) :
    RoundRobin :=
  if (getP store i).pid ∈ s.processed_pids then s
  else { s with queue := s.queue ++ [i],
                processed_pids := (getP store i).pid :: s.processed_pids }

/-- The `for _ in range(len(queue))` rotation scan: pop the front, take it
if ready (re-appending it to the tail), otherwise re-append and continue. -/
def rrScan (store : Store) (t : Nat) : Nat → List Nat → Option Nat × List Nat
  | 0, q => (none, q)
  | _ + 1, [] => (none, [])
  | k + 1, i :: rest =>
      if readyB store t i then (some i, rest ++ [i])
      else rrScan store t k (rest ++ [i])

/-- `RoundRobin.get_next_process`: empty rotation resets the slot and
idles; otherwise the running slot's counter is incremented and the slot is
cleared when `current_runtime ≥ quantum` or `remaining_time ≤ 1`, after
which the rotation is scanned for the next ready process, which starts a
new slice with `current_runtime = 1`. -/
def RoundRobin.get_next_process (store : Store) (s : RoundRobin) (t : Nat) :
    Option Nat × RoundRobin :=
  if s.queue = [] then
    (none, { s with current_process := none, current_runtime := 0 })
  else
    let s1 : RoundRobin :=
      match s.current_process with
      | some c =>
          if s.quantum ≤ s.current_runtime + 1 ∨
              (getP store c).remaining_time ≤ 1 then
            { s with current_runtime := 0, current_process := none }
          else
            { s with current_runtime := s.current_runtime + 1 }
      | none => s
    match s1.current_process with
    | some c => (some c, s1)
    | none =>
        match rrScan store t s1.queue.length s1.queue with
        | (some i, q') =>
            (some i, { s1 with queue := q', current_process := some i,
                               current_runtime := 1 })
        | (none, q') => (none, { s1 with queue := q' })

def rrScheduler : Scheduler RoundRobin :=
  ⟨RoundRobin.add_process, RoundRobin.get_next_process⟩

/-! ### CPUcore (`src/cpu.py`) -/

/-- The mutable state of `CPUcore.run`'s loop. -/
structure CoreState (σ : Type) where
  store : Store
  sched : σ
  added : List Int
  timeline : List (Nat × Int)
  time : Nat
  completed : Nat

/-- One pass of the admission check for the process at index `i`:
arrived, pid not yet admitted, not completed. -/
def admitOne (S : Scheduler σ) (st : CoreState σ) (i : Nat) : CoreState σ :=
  let p := getP st.store i
  if p.arrival_time ≤ st.time ∧ p.pid ∉ st.added ∧ p.completion_time = none
  then { st with sched := S.addProcess st.store st.sched i,
                 added := st.added ++ [p.pid] }
  else st

/-- `for p in processes: ...` admission sweep, in list order. -/
def admitAll (S : Scheduler σ) (st : CoreState σ) : CoreState σ :=
  (List.range st.store.length).foldl (admitOne S) st

/-- The mutation `CPUcore.run` applies to the executed process in one
tick: stamp `start_time` on first dispatch, decrement `remaining_time`,
and stamp `completion_time = time + 1` when it reaches zero. -/
def execProc (t : Nat) (p0 : Process) : Process :=
  let p1 := if p0.start_time = none
            then { p0 with start_time := some t } else p0
  let p2 := { p1 with remaining_time := p1.remaining_time - 1 }
  if p2.remaining_time = 0
  then { p2 with completion_time := some (t + 1) } else p2

/-- The post-admission part of one loop iteration: query the scheduler,
then either execute the returned process for one time unit or record an
idle tick; time advances by one either way. -/
def execTick (S : Scheduler σ) (st : CoreState σ) : CoreState σ :=
  match S.getNext st.store st.sched st.time with
  | (some i, s') =>
      { store := st.store.set i (execProc st.time (getP st.store i))
        sched := s'
        added := st.added
        timeline := st.timeline ++ [(st.time, (getP st.store i).pid)]
        time := st.time + 1
        completed := if (getP st.store i).remaining_time - 1 = 0
                     then st.completed + 1 else st.completed }
  | (none, s') =>
      { st with sched := s'
                timeline := st.timeline ++ [(st.time, -1)]
                time := st.time + 1 }

/-- One iteration of the `while` body in `CPUcore.run`: the admission
sweep followed by the execution tick. -/
def coreStep (S : Scheduler σ) (st : CoreState σ) : CoreState σ :=
  execTick S (admitAll S st)

/-- The guarded loop: run `coreStep` while `completed < total` and
`time < maxTime`, consuming one unit of fuel per iteration. -/
def coreLoop (S : Scheduler σ) (total maxTime : Nat) :
    Nat → CoreState σ → CoreState σ
  | 0, st => st
  | fuel + 1, st =>
      if st.completed < total ∧ st.time < maxTime
      then coreLoop S total maxTime fuel (coreStep S st)
      else st

/-- `sum(p.burst_time for p in processes)`. -/
def totalBurst (procs : Store) : Nat := (procs.map Process.burst_time).sum

/-- The simulation-time safety bound of `CPUcore.run`:
`min(100, total_burst * 2)`, raised to at least 30 when `total_burst < 20`. -/
def maxTimeOf (procs : Store) : Nat :=
  let tb := totalBurst procs
  let m := min 100 (tb * 2)
  if tb < 20 then max m 30 else m

/-- Initial loop state of `CPUcore.run`. -/
def initCore (s0 : σ) (procs : Store) : CoreState σ :=
  ⟨procs, s0, [], [], 0, 0⟩

/-- `CPUcore.run`, returning the full final loop state.  Fuel `maxTimeOf`
is exact: each iteration advances `time` by one and the loop requires
`time < maxTimeOf`. -/
def coreRunState (S : Scheduler σ) (s0 : σ) (procs : Store) : CoreState σ :=
  coreLoop S procs.length (maxTimeOf procs) (maxTimeOf procs)
    (initCore s0 procs)

/-- The caller-visible return value of `CPUcore.run`: just the timeline. -/
def coreRunTimeline (S : Scheduler σ) (s0 : σ) (procs : Store) :
    List (Nat × Int) :=
  (coreRunState S s0 procs).timeline

/-- Whether `CPUcore.run` prints its
"Simulation terminated: Time limit exceeded" diagnostic (to stdout only —
this flag is not part of the returned value). -/
def timeLimitMsgPrinted (S : Scheduler σ) (s0 : σ) (procs : Store) : Bool :=
  decide (maxTimeOf procs ≤ (coreRunState S s0 procs).time)

/-! ### Policy dispatch and the multi-core layer -/

/-- The three concrete policies a run can be configured with. -/
inductive Policy where
  | fcfs : Policy
  | sjf : Policy
  | rr : Int → Policy

/-- Private-state type of each policy. -/
def Policy.State : Policy → Type
  | .fcfs => FCFS
  | .sjf => SJF
  | .rr _ => RoundRobin

/-- The scheduler record for each policy. -/
def Policy.sched : (p : Policy) → Scheduler p.State
  | .fcfs => fcfsScheduler
  | .sjf => sjfScheduler
  | .rr _ => rrScheduler

/-- Fresh scheduler state, as `MultiCoreCPU.__init__` constructs per core
(the quantum reaches only `RoundRobin`). -/
def Policy.init : (p : Policy) → p.State
  | .fcfs => fcfsInit
  | .sjf => sjfInit
  | .rr q => rrInit q

/-- A single-core run under a given policy. -/
def runCore (p : Policy) (procs : Store) : CoreState p.State :=
  coreRunState p.sched p.init procs

/-- The static partition of `MultiCoreCPU.run`: the process at index `i`
of the arrival-sorted list goes to core `i mod num_cores`, in index order. -/
def corePart (n : Nat) (l : Store) (c : Nat) : Store :=
  (l.enum.filter (fun q => q.1 % n = c)).map Prod.snd

/-- The sort key of `processes.sort(key=lambda p: p.arrival_time)`. -/
def byArrival (a b : Process) : Prop := a.arrival_time ≤ b.arrival_time

instance : DecidableRel byArrival := fun a b => Nat.decLe _ _

instance : IsTotal Process byArrival := ⟨fun a b => Nat.le_total _ _⟩

instance : IsTrans Process byArrival := ⟨fun _ _ _ => Nat.le_trans⟩

/-- The stable arrival-time sort `MultiCoreCPU.run` applies up front. -/
def sortByArrival (procs : Store) : Store :=
  List.insertionSort byArrival procs

/-- `MultiCoreCPU.run`: sort by arrival time (stably), partition index
`i ↦ i mod num_cores`, run every core, return the timelines in core order.
With zero cores and a nonempty list, `idx % len(self.cores)` raises
`ZeroDivisionError`, modelled as the error case. -/
def MultiCoreCPU_run (p : Policy) (numCores : Nat) (procs : Store) :
    Except String (List (List (Nat × Int))) :=
  if numCores = 0 ∧ procs ≠ [] then .error "ZeroDivisionError"
  else
    .ok ((List.range numCores).map
      (fun c =>
        (runCore p (corePart numCores (sortByArrival procs) c)).timeline))

/-- Waiting time as derived by `compute_stats` (`src/stats.py`) for a
completed process: `max(0, (completion − arrival) − burst)`. -/
def waitingTimeOf (p : Process) : Option Int :=
  match p.completion_time with
  | some c => some (max 0 ((c : Int) - p.arrival_time - p.burst_time))
  | none => none

/-- A scheduler only ever hands the core a process with work left
(`remaining_time > 0`); all three policies guard on this. -/
def ReturnsPos (S : Scheduler σ) : Prop :=
  ∀ store s t i s', S.getNext store s t = (some i, s') →
    0 < (getP store i).remaining_time

/-- The conservation invariant of the tick loop: pids and bursts are
immutable, every process's executed-tick count plus its remaining time
equals its burst, completion stamps coincide with exhausted remaining
time, and the completed counter counts exhausted processes. -/
def ConsInv (procs : Store) (st : CoreState σ) : Prop :=
  st.store.length = procs.length ∧
  (∀ k, (getP st.store k).pid = (getP procs k).pid) ∧
  (∀ k, (getP st.store k).burst_time = (getP procs k).burst_time) ∧
  (∀ k, k < procs.length →
    st.timeline.countP (fun e => decide (e.2 = (getP procs k).pid)) +
      (getP st.store k).remaining_time = (getP procs k).burst_time) ∧
  (∀ k, k < procs.length →
    ((getP st.store k).completion_time ≠ none ↔
      (getP st.store k).remaining_time = 0)) ∧
  st.completed = st.store.countP (fun p => decide (p.remaining_time = 0))

/-- Well-formed engine input, as `Process.__init__` and the data model
guarantee: fresh remaining time, unset completion, positive burst, pid
distinct from the idle sentinel. -/
def WfInput (procs : Store) : Prop :=
  ∀ p ∈ procs, p.remaining_time = p.burst_time ∧ p.completion_time = none ∧
    0 < p.burst_time ∧ p.pid ≠ -1

/-- The pid recorded on the timeline for one tick: the selected process's
pid, or the idle sentinel −1. -/
def tickPid (S : Scheduler σ) (st : CoreState σ) : Int :=
  match S.getNext st.store st.sched st.time with
  | (some i, _) => (getP st.store i).pid
  | (none, _) => -1

/-- The loop state of `CPUcore.run` after `k` guarded iterations. -/
def stAt (S : Scheduler σ) (s0 : σ) (procs : Store) (k : Nat) : CoreState σ :=
  coreLoop S procs.length (maxTimeOf procs) k (initCore s0 procs)

/-- Some admitted process has arrived and still has work at the state's
current time. -/
def admittedReady (st : CoreState σ) : Prop :=
  ∃ k, k < st.store.length ∧ (getP st.store k).pid ∈ st.added ∧
    ready st.store st.time k

/-- The rotation/queue of each policy's state. -/
def Policy.queueOf : (pol : Policy) → pol.State → List Nat
  | .fcfs => FCFS.queue
  | .sjf => SJF.queue
  | .rr _ => RoundRobin.queue

/-- The pid dedup set of each policy's state. -/
def Policy.pidsOf : (pol : Policy) → pol.State → List Int
  | .fcfs => FCFS.processed_pids
  | .sjf => SJF.processed_pids
  | .rr _ => RoundRobin.processed_pids

/-- Policy-specific bookkeeping invariant: RoundRobin's running slot holds
an admitted, already-arrived queue member. -/
def Policy.extraInv : (pol : Policy) → CoreState pol.State → Prop
  | .rr _ => fun st => ∀ c, st.sched.current_process = some c →
      c ∈ st.sched.queue ∧ (getP st.store c).arrival_time ≤ st.time
  | .fcfs => fun _ => True
  | .sjf => fun _ => True

/-- Store shape facts preserved by the loop: length, pids and arrival
times never change. -/
def StoreBase (procs : Store) (st : CoreState σ) : Prop :=
  st.store.length = procs.length ∧
  (∀ k, (getP st.store k).pid = (getP procs k).pid) ∧
  (∀ k, (getP st.store k).arrival_time = (getP procs k).arrival_time)

/-- The joint scheduler/core bookkeeping invariant: the dedup set mirrors
the core's admitted set, and the queue holds exactly the admitted store
indices. -/
def CoreInvGen (procs : Store) (pol : Policy)
    (st : CoreState pol.State) : Prop :=
  StoreBase procs st ∧
  (∀ x, x ∈ pol.pidsOf st.sched ↔ x ∈ st.added) ∧
  (∀ i, i ∈ pol.queueOf st.sched ↔
    i < st.store.length ∧ (getP st.store i).pid ∈ st.added) ∧
  pol.extraInv st

/-- Strict order maintained by the FCFS ready queue: earlier arrival
first, arrival ties resolved by admission order (the position of the pid
in the core's admitted list). -/
def lexLt (store : Store) (added : List Int) (i j : Nat) : Prop :=
  (getP store i).arrival_time < (getP store j).arrival_time ∨
  ((getP store i).arrival_time = (getP store j).arrival_time ∧
    List.indexOf (getP store i).pid added <
      List.indexOf (getP store j).pid added)

/-- Stable tail insertion: the effect of `sort(key=arrival_time)` on an
already-sorted queue with one element appended — the new element lands
after every element with arrival no larger than its own. -/
def insertTail (store : Store) (x : Nat) : List Nat → List Nat
  | [] => [x]
  | y :: l => if (getP store x).arrival_time < (getP store y).arrival_time
              then x :: y :: l else y :: insertTail store x l

/-- FCFS-specific loop invariant: the queue is strictly ordered by
(arrival, admission), queue members have arrived, every process arrived
strictly before the current time is admitted, and completed processes are
admitted. -/
def FcfsInv (procs : Store) (st : CoreState FCFS) : Prop :=
  st.sched.queue.Pairwise (lexLt st.store st.added) ∧
  (∀ i ∈ st.sched.queue, (getP st.store i).arrival_time ≤ st.time) ∧
  (∀ k, k < procs.length → (getP st.store k).arrival_time < st.time →
    (getP st.store k).pid ∈ st.added) ∧
  (∀ k, k < procs.length → (getP st.store k).completion_time ≠ none →
    (getP st.store k).pid ∈ st.added)

/-- The state at which tick `t` of an FCFS run queries the scheduler:
the post-admission state of iteration `t`. -/
def fcfsCallState (procs : Store) (t : Nat) : CoreState FCFS :=
  admitAll Policy.fcfs.sched (stAt Policy.fcfs.sched Policy.fcfs.init procs t)

/-! ## Basic facts about the tick loop -/

theorem getP_eq_getElem {store : Store} {k : Nat} (h : k < store.length) :
    getP store k = store[k] := by
  simp [getP, List.getD_eq_getElem?_getD, List.getElem?_eq_getElem h]

/-- An index holding a process with positive remaining time is in range. -/
theorem getP_pos_lt {store : Store} {k : Nat}
    (h : 0 < (getP store k).remaining_time) : k < store.length := by
  by_contra hk
  push_neg at hk
  have he : getP store k = dfltProcess := by
    simp [getP, List.getD_eq_getElem?_getD, List.getElem?_eq_none hk]
  rw [he] at h
  simp [dfltProcess] at h

theorem getP_set_same {store : Store} {i : Nat} (h : i < store.length)
    (p : Process) : getP (store.set i p) i = p := by
  simp [getP, List.getD_eq_getElem?_getD, List.getElem?_set, h]

theorem getP_set_ne {store : Store} {i k : Nat} (h : i ≠ k) (p : Process) :
    getP (store.set i p) k = getP store k := by
  simp [getP, List.getD_eq_getElem?_getD, List.getElem?_set, h]

theorem execProc_fields (t : Nat) (p0 : Process) :
    (execProc t p0).pid = p0.pid ∧
    (execProc t p0).arrival_time = p0.arrival_time ∧
    (execProc t p0).burst_time = p0.burst_time ∧
    (execProc t p0).remaining_time = p0.remaining_time - 1 ∧
    (execProc t p0).completion_time =
      (if p0.remaining_time - 1 = 0 then some (t + 1)
       else p0.completion_time) := by
  unfold execProc
  by_cases h1 : p0.start_time = none <;>
    by_cases h2 : p0.remaining_time - 1 = 0 <;> simp [h1, h2]

/-- Distinct indices carry distinct pids when the input pid list has no
duplicates. -/
theorem pid_ne_of_index_ne {procs : Store}
    (hnd : (procs.map Process.pid).Nodup) {i k : Nat}
    (hi : i < procs.length) (hk : k < procs.length) (hne : i ≠ k) :
    (getP procs i).pid ≠ (getP procs k).pid := by
  intro he
  rw [getP_eq_getElem hi, getP_eq_getElem hk] at he
  have hi' : i < (procs.map Process.pid).length := by simpa using hi
  have hk' : k < (procs.map Process.pid).length := by simpa using hk
  have hm : (procs.map Process.pid)[i] = (procs.map Process.pid)[k] := by
    simpa [List.getElem_map] using he
  exact hne ((hnd.getElem_inj_iff).mp hm)

theorem admitOne_fields (S : Scheduler σ) (st : CoreState σ) (i : Nat) :
    (admitOne S st i).store = st.store ∧
    (admitOne S st i).time = st.time ∧
    (admitOne S st i).timeline = st.timeline ∧
    (admitOne S st i).completed = st.completed := by
  by_cases h : (getP st.store i).arrival_time ≤ st.time ∧
      (getP st.store i).pid ∉ st.added ∧
      (getP st.store i).completion_time = none <;>
    simp [admitOne, h]

theorem foldl_admitOne_fields (S : Scheduler σ) (l : List Nat)
    (st : CoreState σ) :
    (l.foldl (admitOne S) st).store = st.store ∧
    (l.foldl (admitOne S) st).time = st.time ∧
    (l.foldl (admitOne S) st).timeline = st.timeline ∧
    (l.foldl (admitOne S) st).completed = st.completed := by
  induction l generalizing st with
  | nil => simp
  | cons a l ih =>
      simpa [List.foldl_cons, admitOne_fields S st a] using ih (admitOne S st a)

theorem admitAll_fields (S : Scheduler σ) (st : CoreState σ) :
    (admitAll S st).store = st.store ∧
    (admitAll S st).time = st.time ∧
    (admitAll S st).timeline = st.timeline ∧
    (admitAll S st).completed = st.completed :=
  foldl_admitOne_fields S _ st

theorem execTick_time (S : Scheduler σ) (st : CoreState σ) :
    (execTick S st).time = st.time + 1 := by
  unfold execTick
  rcases h : S.getNext st.store st.sched st.time with ⟨r, s'⟩
  rcases r with _ | i <;> simp [h]

theorem execTick_timeline (S : Scheduler σ) (st : CoreState σ) :
    ∃ x : Int, (execTick S st).timeline = st.timeline ++ [(st.time, x)] := by
  unfold execTick
  rcases h : S.getNext st.store st.sched st.time with ⟨r, s'⟩
  rcases r with _ | i
  · exact ⟨-1, by simp [h]⟩
  · exact ⟨(getP st.store i).pid, by simp [h]⟩

theorem execTick_store_length (S : Scheduler σ) (st : CoreState σ) :
    (execTick S st).store.length = st.store.length := by
  unfold execTick
  rcases h : S.getNext st.store st.sched st.time with ⟨r, s'⟩
  rcases r with _ | i <;> simp [h]

/-- Each loop iteration advances time by exactly one unit. -/
theorem coreStep_time (S : Scheduler σ) (st : CoreState σ) :
    (coreStep S st).time = st.time + 1 := by
  unfold coreStep
  rw [execTick_time, (admitAll_fields S st).2.1]

/-- Each loop iteration appends exactly one timeline sample, stamped with
the pre-step time. -/
theorem coreStep_timeline (S : Scheduler σ) (st : CoreState σ) :
    ∃ x : Int, (coreStep S st).timeline = st.timeline ++ [(st.time, x)] := by
  obtain ⟨x, hx⟩ := execTick_timeline S (admitAll S st)
  exact ⟨x, by
    rw [coreStep, hx, (admitAll_fields S st).2.1, (admitAll_fields S st).2.2.1]⟩

theorem coreStep_store_length (S : Scheduler σ) (st : CoreState σ) :
    (coreStep S st).store.length = st.store.length := by
  rw [coreStep, execTick_store_length, (admitAll_fields S st).1]

/-- A state in which the loop guard fails is a fixpoint of the loop. -/
theorem coreLoop_freeze (S : Scheduler σ) (total mt fuel : Nat)
    (st : CoreState σ)
    (h : ¬(st.completed < total ∧ st.time < mt)) :
    coreLoop S total mt fuel st = st := by
  cases fuel with
  | zero => rfl
  | succ n => simp [coreLoop, h]

/-- Fuel splits: running `a + b` iterations is running `a` then `b`. -/
theorem coreLoop_add (S : Scheduler σ) (total mt a b : Nat)
    (st : CoreState σ) :
    coreLoop S total mt (a + b) st =
      coreLoop S total mt b (coreLoop S total mt a st) := by
  induction a generalizing st with
  | zero => simp [coreLoop]
  | succ n ih =>
      by_cases h : st.completed < total ∧ st.time < mt
      · have : n + 1 + b = (n + b) + 1 := by omega
        rw [this]
        simp only [coreLoop, h, if_pos, and_self]
        rw [show (n+b) = n + b from rfl] at *
        simpa [coreLoop, h] using ih (coreStep S st)
      · rw [coreLoop_freeze S total mt (n+1) st h,
            coreLoop_freeze S total mt (n+1+b) st h,
            coreLoop_freeze S total mt b st h]

/-- The loop never pushes time beyond the bound. -/
theorem coreLoop_time_le (S : Scheduler σ) (total mt fuel : Nat)
    (st : CoreState σ) (h : st.time ≤ mt) :
    (coreLoop S total mt fuel st).time ≤ mt := by
  induction fuel generalizing st with
  | zero => exact h
  | succ n ih =>
      by_cases hc : st.completed < total ∧ st.time < mt
      · simp only [coreLoop, hc, if_pos, and_self]
        exact ih (coreStep S st) (by rw [coreStep_time]; omega)
      · rwa [coreLoop_freeze S total mt (n+1) st hc]

/-- Timeline growth equals time growth across any number of iterations. -/
theorem coreLoop_timeline_time (S : Scheduler σ) (total mt fuel : Nat)
    (st : CoreState σ) :
    (coreLoop S total mt fuel st).timeline.length + st.time =
      (coreLoop S total mt fuel st).time + st.timeline.length := by
  induction fuel generalizing st with
  | zero => simp [coreLoop, Nat.add_comm]
  | succ n ih =>
      by_cases hc : st.completed < total ∧ st.time < mt
      · simp only [coreLoop, hc, if_pos, and_self]
        have h1 := ih (coreStep S st)
        obtain ⟨x, hx⟩ := coreStep_timeline S st
        rw [coreStep_time, hx] at h1
        simp only [List.length_append, List.length_cons, List.length_nil] at h1
        omega
      · rw [coreLoop_freeze S total mt (n+1) st hc]; omega

/-- With fuel at least `mt − time`, the loop runs to a genuine exit:
the guard fails at the final state. -/
theorem coreLoop_exit (S : Scheduler σ) (total mt fuel : Nat)
    (st : CoreState σ) (h : mt ≤ st.time + fuel) :
    ¬((coreLoop S total mt fuel st).completed < total ∧
      (coreLoop S total mt fuel st).time < mt) := by
  induction fuel generalizing st with
  | zero =>
      simp only [coreLoop]
      omega
  | succ n ih =>
      by_cases hc : st.completed < total ∧ st.time < mt
      · simp only [coreLoop, hc, if_pos, and_self]
        exact ih (coreStep S st) (by rw [coreStep_time]; omega)
      · rwa [coreLoop_freeze S total mt (n+1) st hc]

/-- Invariant rule for the loop. -/
theorem coreLoop_inv (S : Scheduler σ) (total mt fuel : Nat)
    (Inv : CoreState σ → Prop)
    (hstep : ∀ st, Inv st → st.completed < total → st.time < mt →
      Inv (coreStep S st))
    (st : CoreState σ) (h0 : Inv st) :
    Inv (coreLoop S total mt fuel st) := by
  induction fuel generalizing st with
  | zero => exact h0
  | succ n ih =>
      by_cases hc : st.completed < total ∧ st.time < mt
      · simp only [coreLoop, hc, if_pos, and_self]
        exact ih _ (hstep st h0 hc.1 hc.2)
      · rwa [coreLoop_freeze S total mt (n+1) st hc]

/-- The safety bound never exceeds 100 time units. -/
theorem maxTimeOf_le_100 (procs : Store) : maxTimeOf procs ≤ 100 := by
  unfold maxTimeOf
  by_cases h : totalBurst procs < 20
  · simp only [h, if_true]
    omega
  · simp only [h, if_false]
    omega

/-! ## Loop exit, time bound, and the time-limit behavior (C10, C9) -/

/-- C10: `CPUcore.run` terminates for every finite process list under every
policy: each iteration advances time by exactly one, the loop exits once
`completed = total` or `time` reaches `max_time = min(100, 2·total_burst)`
(raised to at least 30 when total burst < 20), and consequently the
timeline never holds more than 100 entries. -/
theorem coreRun_terminates_within_bound {σ : Type} (S : Scheduler σ)
    (s0 : σ) (procs : Store) :
    (coreRunState S s0 procs).timeline.length = (coreRunState S s0 procs).time ∧
    ¬((coreRunState S s0 procs).completed < procs.length ∧
      (coreRunState S s0 procs).time < maxTimeOf procs) ∧
    (coreRunState S s0 procs).time ≤ maxTimeOf procs ∧
    maxTimeOf procs =
      (if totalBurst procs < 20 then max (min 100 (2 * totalBurst procs)) 30
       else min 100 (2 * totalBurst procs)) ∧
    (coreRunState S s0 procs).timeline.length ≤ 100 := by
  have hlen : (coreRunState S s0 procs).timeline.length =
      (coreRunState S s0 procs).time := by
    have := coreLoop_timeline_time S procs.length (maxTimeOf procs)
      (maxTimeOf procs) (initCore s0 procs)
    simpa [coreRunState, initCore] using this
  have hexit : ¬((coreRunState S s0 procs).completed < procs.length ∧
      (coreRunState S s0 procs).time < maxTimeOf procs) :=
    coreLoop_exit S procs.length (maxTimeOf procs)
      (maxTimeOf procs) (initCore s0 procs) (by simp [initCore])
  have hle : (coreRunState S s0 procs).time ≤ maxTimeOf procs :=
    coreLoop_time_le S procs.length (maxTimeOf procs)
      (maxTimeOf procs) (initCore s0 procs) (by simp [initCore])
  refine ⟨hlen, hexit, hle, ?_, ?_⟩
  · simp [maxTimeOf, Nat.mul_comm]
  · have := maxTimeOf_le_100 procs
    omega

/-- C9 (amended): when the loop stops with unfinished processes, the time
bound was reached exactly, the diagnostic print fires, and the caller still
receives the truncated timeline (of exactly `max_time` entries) as a normal
return value, indistinguishable in kind from a successful run's. -/
theorem timeLimit_returns_plain_timeline {σ : Type} (S : Scheduler σ)
    (s0 : σ) (procs : Store)
    (h : (coreRunState S s0 procs).completed < procs.length) :
    (coreRunState S s0 procs).time = maxTimeOf procs ∧
    (coreRunTimeline S s0 procs).length = maxTimeOf procs ∧
    timeLimitMsgPrinted S s0 procs = true := by
  have hall := coreRun_terminates_within_bound S s0 procs
  have htime : (coreRunState S s0 procs).time = maxTimeOf procs := by
    have h2 := hall.2.1
    have h3 := hall.2.2.1
    omega
  refine ⟨htime, ?_, ?_⟩
  · rw [coreRunTimeline, hall.1, htime]
  · simp [timeLimitMsgPrinted, htime]

set_option maxRecDepth 40000 in
/-- C9 witness: the amended theorem applied to a process whose burst (200)
exceeds the bound (100). -/
theorem timeLimit_returns_plain_timeline_witness :
    (coreRunState fcfsScheduler fcfsInit [mkProcess 0 0 200]).completed <
      ([mkProcess 0 0 200] : Store).length ∧
    (coreRunState fcfsScheduler fcfsInit [mkProcess 0 0 200]).time =
      maxTimeOf [mkProcess 0 0 200] :=
  ⟨by decide,
   (timeLimit_returns_plain_timeline fcfsScheduler fcfsInit
     [mkProcess 0 0 200] (by decide)).1⟩

set_option maxRecDepth 40000 in
/-- C9 counterexample: with a single process of burst 200 the bound (100)
is hit, yet `CPUcore.run` returns a plain 100-entry timeline — not any
failure value — and the process is left uncompleted: the claim that the
condition is surfaced to the caller as a run failure rather than an
as-if-successful return is false. -/
theorem timeLimit_claim_counterexample :
    coreRunTimeline fcfsScheduler fcfsInit [mkProcess 0 0 200] ≠ [] ∧
    (coreRunTimeline fcfsScheduler fcfsInit [mkProcess 0 0 200]).length = 100 ∧
    (coreRunState fcfsScheduler fcfsInit [mkProcess 0 0 200]).completed = 0 ∧
    (coreRunState fcfsScheduler fcfsInit
      [mkProcess 0 0 200]).store.map Process.completion_time = [none] := by
  decide

/-! ## Round-robin quantum off-by-one (C1, C2) -/

/-- C1: evaluating the code on the claimed scenario (single core,
RoundRobin quantum 2, P0(arr 0, burst 3), P1(arr 0, burst 3)).  The actual
timeline is `[(0,P0),(1,P1),(2,P0),(3,P1),(4,P0),(5,P1)]` — alternating
every tick, not in quantum-2 slices — because `current_runtime` starts at
1 on selection and is incremented before the quantum test on the next
call.  Completions are 5 and 6 and the waiting times are 2 and 3, so the
claimed timeline `[(0,P0),(1,P0),(2,P1),(3,P1),(4,P0),(5,P1)]` and the
claimed waiting time 3 for each process are both false on the code. -/
theorem rr_quantum2_scenario_eval :
    (runCore (.rr 2) [mkProcess 0 0 3, mkProcess 1 0 3]).timeline =
      [(0, 0), (1, 1), (2, 0), (3, 1), (4, 0), (5, 1)] ∧
    (runCore (.rr 2) [mkProcess 0 0 3, mkProcess 1 0 3]).store.map
      Process.completion_time = [some 5, some 6] ∧
    (runCore (.rr 2) [mkProcess 0 0 3, mkProcess 1 0 3]).store.map
      waitingTimeOf = [some 2, some 3] := by
  decide

/-- C2: evaluating the code at quantum 3 on two burst-10 processes.  P0 is
preempted after only 2 consecutive ticks (quantum − 1) although its
remaining time is still 8, contradicting the claim that a running process
is returned until it has run `quantum` consecutive units or is about to
finish.  The first three ticks of the genuine run are P0, P0, P1, and
after those three ticks the remaining times are 8 and 9. -/
theorem rr_quantum3_early_preempt_eval :
    (runCore (.rr 3) [mkProcess 0 0 10, mkProcess 1 0 10]).timeline.take 4 =
      [(0, 0), (1, 0), (2, 1), (3, 1)] ∧
    maxTimeOf [mkProcess 0 0 10, mkProcess 1 0 10] = 40 ∧
    (coreLoop (Policy.sched (.rr 3)) 2 40 3
      (initCore (Policy.init (.rr 3))
        [mkProcess 0 0 10, mkProcess 1 0 10])).timeline =
      [(0, 0), (1, 0), (2, 1)] ∧
    (coreLoop (Policy.sched (.rr 3)) 2 40 3
      (initCore (Policy.init (.rr 3))
        [mkProcess 0 0 10, mkProcess 1 0 10])).store.map
      Process.remaining_time = [8, 9] := by
  decide

/-! ## Conservation counterexample (C3) -/

set_option maxRecDepth 40000 in
/-- C3 counterexample: a single process with burst 120 on FCFS.  The
safety bound caps the run at 100 ticks, so the process receives only 100
timeline entries, not `burst_time = 120`: conservation as universally
stated is false. -/
theorem conservation_counterexample :
    ((runCore .fcfs [mkProcess 7 0 120]).timeline.countP
      (fun e => decide (e.2 = (7 : Int)))) = 100 ∧
    (mkProcess 7 0 120).burst_time = 120 := by
  decide

/-! ## SJF tie-break counterexample (C4) -/

/-- C4 counterexample: two ready processes with equal `remaining_time` and
equal arrival, admitted in the order pid 5 then pid 1.  The code returns
the first-admitted one (index 0, pid 5), whereas a tie-break by arrival
time and then pid would return pid 1: Python's `min` keeps the earliest
queue element on ties, so ties are broken by admission order, not pid. -/
theorem sjf_tiebreak_counterexample :
    (SJF.get_next_process [mkProcess 5 0 2, mkProcess 1 0 2]
      (SJF.add_process [mkProcess 5 0 2, mkProcess 1 0 2]
        (SJF.add_process [mkProcess 5 0 2, mkProcess 1 0 2] sjfInit 0) 1)
      0).1 = some 0 ∧
    (getP [mkProcess 5 0 2, mkProcess 1 0 2] 0).pid = 5 ∧
    (getP [mkProcess 5 0 2, mkProcess 1 0 2] 1).pid = 1 ∧
    (getP [mkProcess 5 0 2, mkProcess 1 0 2] 1).remaining_time =
      (getP [mkProcess 5 0 2, mkProcess 1 0 2] 0).remaining_time ∧
    (getP [mkProcess 5 0 2, mkProcess 1 0 2] 1).arrival_time =
      (getP [mkProcess 5 0 2, mkProcess 1 0 2] 0).arrival_time ∧
    ready [mkProcess 5 0 2, mkProcess 1 0 2] 0 1 := by
  decide

/-! ## Configuration validation (C8) -/

/-- C8 counterexample: an empty process set is not rejected — with one
FCFS core the run returns `ok [[]]` (a normal, empty timeline list), and a
round-robin quantum of 0 is accepted and simulated to completion,
returning a normal timeline.  No InvalidConfiguration rejection exists. -/
theorem invalid_config_counterexample :
    MultiCoreCPU_run .fcfs 1 [] = .ok [[]] ∧
    MultiCoreCPU_run (.rr 0) 1 [mkProcess 0 0 2, mkProcess 1 0 2] =
      .ok [[(0, 0), (1, 1), (2, 0), (3, 1)]] :=
  ⟨rfl, rfl⟩

/-! ## Every policy only ever returns a process with work left -/

theorem pyMin_foldl_mem (key : Nat → Nat) :
    ∀ (l : List Nat) (acc : Option Nat) (x : Nat),
      l.foldl
        (fun acc x =>
          match acc with
          | none => some x
          | some m => if key x < key m then some x else some m) acc = some x →
      acc = some x ∨ x ∈ l := by
  intro l
  induction l with
  | nil => intro acc x h; exact Or.inl h
  | cons a l ih =>
      intro acc x h
      rcases ih _ x h with h1 | h1
      · rcases acc with _ | m
        · simp at h1
          subst h1
          exact Or.inr (List.mem_cons_self a l)
        · by_cases hlt : key a < key m
          · simp [hlt] at h1
            subst h1
            exact Or.inr (List.mem_cons_self a l)
          · simp [hlt] at h1
            subst h1
            exact Or.inl rfl
      · exact Or.inr (List.mem_cons_of_mem a h1)

theorem pyMin_mem {key : Nat → Nat} {l : List Nat} {x : Nat}
    (h : pyMin key l = some x) : x ∈ l := by
  rcases pyMin_foldl_mem key l none x h with h1 | h1
  · exact absurd h1 (by simp)
  · exact h1

theorem rrScan_some {store : Store} {t : Nat} :
    ∀ {k : Nat} {q : List Nat} {i : Nat} {q' : List Nat},
      rrScan store t k q = (some i, q') →
      readyB store t i = true ∧ i ∈ q := by
  intro k
  induction k with
  | zero => intro q i q' h; simp [rrScan] at h
  | succ n ih =>
      intro q i q' h
      match q with
      | [] => simp [rrScan] at h
      | a :: rest =>
          by_cases ha : readyB store t a
          · simp [rrScan, ha] at h
            exact ⟨h.1 ▸ ha, h.1 ▸ List.mem_cons_self a rest⟩
          · simp only [rrScan, ha, Bool.false_eq_true, if_false] at h
            obtain ⟨hr, hm⟩ := ih h
            refine ⟨hr, ?_⟩
            rcases List.mem_append.mp hm with h1 | h1
            · exact List.mem_cons_of_mem a h1
            · simp at h1
              rw [h1]
              exact List.mem_cons_self _ _

theorem fcfs_returnsPos : ReturnsPos fcfsScheduler := by
  intro store s t i s' h
  simp only [fcfsScheduler, FCFS.get_next_process, Prod.mk.injEq] at h
  have := List.find?_some h.1
  simp [readyB, ready] at this
  exact this.2

theorem sjf_returnsPos : ReturnsPos sjfScheduler := by
  intro store s t i s' h
  simp only [sjfScheduler, SJF.get_next_process, Prod.mk.injEq] at h
  have hm := pyMin_mem h.1
  have := (List.mem_filter.mp hm).2
  simp [readyB, ready] at this
  exact this.2

theorem rr_returnsPos : ReturnsPos rrScheduler := by
  intro store s t i s' h
  simp only [rrScheduler, RoundRobin.get_next_process] at h
  by_cases hq : s.queue = []
  · simp [hq] at h
  · simp only [hq, if_false] at h
    rcases hc : s.current_process with _ | c
    · simp only [hc] at h
      rcases hscan : rrScan store t s.queue.length s.queue with ⟨r, q'⟩
      rcases r with _ | j
      · simp [hscan] at h
      · simp [hscan] at h
        obtain ⟨hr, _⟩ := rrScan_some hscan
        simp [readyB, ready] at hr
        exact h.1 ▸ hr.2
    · by_cases hpre : s.quantum ≤ s.current_runtime + 1 ∨
          (getP store c).remaining_time ≤ 1
      · simp only [hc, hpre, if_true] at h
        rcases hscan : rrScan store t s.queue.length s.queue with ⟨r, q'⟩
        rcases r with _ | j
        · simp [hscan] at h
        · simp [hscan] at h
          obtain ⟨hr, _⟩ := rrScan_some hscan
          simp [readyB, ready] at hr
          exact h.1 ▸ hr.2
      · simp only [hc, hpre, if_false] at h
        simp at h
        push_neg at hpre
        obtain ⟨hci, -⟩ := h
        rw [← hci]
        omega


/-! ## Conservation under completed runs (C3) -/

theorem consInv_init (s0 : σ) (procs : Store) (hwf : WfInput procs) :
    ConsInv procs (initCore s0 procs) := by
  refine ⟨rfl, fun k => rfl, fun k => rfl, ?_, ?_, ?_⟩
  · intro k hk
    have hmem : procs[k] ∈ procs := List.getElem_mem hk
    have h1 := (hwf _ hmem).1
    simp only [initCore, List.countP_nil, Nat.zero_add]
    rw [getP_eq_getElem hk]
    exact h1
  · intro k hk
    have hmem : procs[k] ∈ procs := List.getElem_mem hk
    obtain ⟨h1, h2, h3, -⟩ := hwf _ hmem
    simp only [initCore]
    rw [getP_eq_getElem hk]
    constructor
    · intro hne
      exact absurd h2 hne
    · intro h0
      omega
  · simp only [initCore]
    symm
    rw [List.countP_eq_zero]
    intro p hp
    obtain ⟨h1, -, h3, -⟩ := hwf p hp
    simp only [decide_eq_true_eq]
    omega

theorem consInv_admitAll (S : Scheduler σ) {procs : Store}
    {st : CoreState σ} (h : ConsInv procs st) :
    ConsInv procs (admitAll S st) := by
  have hf := admitAll_fields S st
  unfold ConsInv at h ⊢
  rw [hf.1, hf.2.2.1, hf.2.2.2]
  exact h

theorem consInv_execTick (S : Scheduler σ) (hpos : ReturnsPos S)
    (procs : Store) (st : CoreState σ)
    (hwf : WfInput procs) (hnd : (procs.map Process.pid).Nodup)
    (hinv : ConsInv procs st) : ConsInv procs (execTick S st) := by
  obtain ⟨hlen, hpid, hburst, hcount, hcomp, hdone⟩ := hinv
  rcases h : S.getNext st.store st.sched st.time with ⟨r, s'⟩
  rcases r with _ | i
  · simp only [execTick, h]
    refine ⟨hlen, hpid, hburst, ?_, hcomp, hdone⟩
    intro k hk
    have hpidk : (getP procs k).pid ≠ -1 := by
      have hmem : procs[k] ∈ procs := List.getElem_mem hk
      rw [getP_eq_getElem hk]
      exact (hwf _ hmem).2.2.2
    rw [List.countP_append]
    have hone : List.countP (fun e => decide (e.2 = (getP procs k).pid))
        [((st.time : Nat), (-1 : Int))] = 0 := by
      simp [List.countP_cons]
      omega
    rw [hone]
    simpa using hcount k hk
  · have hposi : 0 < (getP st.store i).remaining_time := hpos _ _ _ _ _ h
    have hilt : i < st.store.length := getP_pos_lt hposi
    have hiltp : i < procs.length := by omega
    have hef := execProc_fields st.time (getP st.store i)
    simp only [execTick, h]
    refine ⟨?_, ?_, ?_, ?_, ?_, ?_⟩
    · simpa using hlen
    · intro k
      by_cases hki : i = k
      · subst hki
        rw [getP_set_same hilt]
        rw [hef.1]
        exact hpid i
      · rw [getP_set_ne hki]
        exact hpid k
    · intro k
      by_cases hki : i = k
      · subst hki
        rw [getP_set_same hilt, hef.2.2.1]
        exact hburst i
      · rw [getP_set_ne hki]
        exact hburst k
    · intro k hk
      rw [List.countP_append]
      by_cases hki : i = k
      · subst hki
        rw [getP_set_same hilt, hef.2.2.2.1]
        have hone : List.countP (fun e => decide (e.2 = (getP procs i).pid))
            [((st.time : Nat), (getP st.store i).pid)] = 1 := by
          simp [List.countP_cons, hpid i]
        rw [hone]
        have := hcount i hk
        omega
      · rw [getP_set_ne hki]
        have hne : (getP procs i).pid ≠ (getP procs k).pid :=
          pid_ne_of_index_ne hnd hiltp hk hki
        have hone : List.countP (fun e => decide (e.2 = (getP procs k).pid))
            [((st.time : Nat), (getP st.store i).pid)] = 0 := by
          simp [List.countP_cons, hpid i]
          exact hne
        rw [hone]
        simpa using hcount k hk
    · intro k hk
      by_cases hki : i = k
      · subst hki
        rw [getP_set_same hilt, hef.2.2.2.1, hef.2.2.2.2]
        by_cases hfin : (getP st.store i).remaining_time - 1 = 0 <;>
          simp [hfin]
        by_contra hc
        have := (hcomp i hk).mp hc
        omega
      · rw [getP_set_ne hki]
        exact hcomp k hk
    · have hnotz : (decide (st.store[i].remaining_time = 0)) = false := by
        rw [← getP_eq_getElem hilt]
        simp
        omega
      rw [List.countP_set _ _ _ _ hilt, hnotz, hdone, hef.2.2.2.1]
      by_cases hfin : (getP st.store i).remaining_time - 1 = 0
      · simp [hfin]
      · simp [hfin]

/-- C3 (amended): provided the run completes — the core's final completed
counter equals its process count — the number of timeline entries carrying
a process's pid equals its original burst time, under every policy. -/
theorem conservation_when_complete (pol : Policy) (procs : Store)
    (hwf : WfInput procs) (hnd : (procs.map Process.pid).Nodup)
    (hdone : (runCore pol procs).completed = procs.length) :
    ∀ p ∈ procs,
      (runCore pol procs).timeline.countP (fun e => decide (e.2 = p.pid)) =
        p.burst_time := by
  have hpos : ReturnsPos pol.sched := by
    cases pol with
    | fcfs => exact fcfs_returnsPos
    | sjf => exact sjf_returnsPos
    | rr q => exact rr_returnsPos
  have hInv : ConsInv procs (runCore pol procs) := by
    unfold runCore coreRunState
    apply coreLoop_inv _ _ _ _ (ConsInv procs)
    · intro st hst hc1 hc2
      exact consInv_execTick _ hpos procs _ hwf hnd (consInv_admitAll _ hst)
    · exact consInv_init _ procs hwf
  obtain ⟨hlen, hpid, hburst, hcount, hcomp, hdoneInv⟩ := hInv
  have hcntlen : (runCore pol procs).store.countP
      (fun p => decide (p.remaining_time = 0)) =
      (runCore pol procs).store.length := by
    omega
  have h2 := List.countP_eq_length.mp hcntlen
  intro p hp
  obtain ⟨k, hk, hkp⟩ := List.mem_iff_getElem.mp hp
  have hk' : k < (runCore pol procs).store.length := by omega
  have hrem : (getP (runCore pol procs).store k).remaining_time = 0 := by
    have := h2 _ (List.getElem_mem hk')
    rw [getP_eq_getElem hk']
    simpa using this
  have hc := hcount k hk
  rw [hrem, getP_eq_getElem hk, hkp] at hc
  simpa using hc

/-- C3 witness: both processes of a two-process FCFS workload complete,
and the pid-0 process receives exactly its burst (2) timeline entries. -/
theorem conservation_when_complete_witness :
    (runCore .fcfs [mkProcess 0 0 2, mkProcess 1 1 3]).timeline.countP
      (fun e => decide (e.2 = (mkProcess 0 0 2).pid)) =
      (mkProcess 0 0 2).burst_time :=
  conservation_when_complete .fcfs [mkProcess 0 0 2, mkProcess 1 1 3]
    (by unfold WfInput; decide) (by decide) (by decide)
    (mkProcess 0 0 2) (by decide)

/-! ## SJF selection characterization (C4) -/

theorem pyMin_foldl_split (key : Nat → Nat) :
    ∀ (l : List Nat) (m x : Nat),
      l.foldl
        (fun acc x =>
          match acc with
          | none => some x
          | some m => if key x < key m then some x else some m)
        (some m) = some x →
      (x = m ∧ ∀ y ∈ l, key m ≤ key y) ∨
      (∃ l₁ l₂, l = l₁ ++ x :: l₂ ∧ key x < key m ∧
        (∀ y ∈ l₁, key x < key y) ∧ (∀ y ∈ l₂, key x ≤ key y)) := by
  intro l
  induction l with
  | nil =>
      intro m x h
      simp at h
      exact Or.inl ⟨h.symm, by simp⟩
  | cons a l ih =>
      intro m x h
      by_cases hlt : key a < key m
      · simp only [List.foldl_cons, hlt, if_pos] at h
        rcases ih a x h with ⟨hx, hall⟩ | ⟨l₁, l₂, hsplit, hxa, h1, h2⟩
        · subst hx
          exact Or.inr ⟨[], l, by simp, hlt, by simp, hall⟩
        · refine Or.inr ⟨a :: l₁, l₂, by simp [hsplit], ?_, ?_, h2⟩
          · omega
          · intro y hy
            rcases List.mem_cons.mp hy with hy | hy
            · subst hy
              exact hxa
            · exact h1 y hy
      · simp only [List.foldl_cons, hlt, if_neg, if_false] at h
        rcases ih m x h with ⟨hx, hall⟩ | ⟨l₁, l₂, hsplit, hxm, h1, h2⟩
        · refine Or.inl ⟨hx, ?_⟩
          intro y hy
          rcases List.mem_cons.mp hy with hy | hy
          · subst hy
            omega
          · exact hall y hy
        · refine Or.inr ⟨a :: l₁, l₂, by simp [hsplit], hxm, ?_, h2⟩
          intro y hy
          rcases List.mem_cons.mp hy with hy | hy
          · subst hy
            omega
          · exact h1 y hy

theorem pyMin_split {key : Nat → Nat} {l : List Nat} {x : Nat}
    (h : pyMin key l = some x) :
    ∃ l₁ l₂, l = l₁ ++ x :: l₂ ∧
      (∀ y ∈ l₁, key x < key y) ∧ (∀ y ∈ l₂, key x ≤ key y) := by
  match l with
  | [] => simp [pyMin] at h
  | a :: l' =>
      have h' : l'.foldl
          (fun acc x =>
            match acc with
            | none => some x
            | some m => if key x < key m then some x else some m)
          (some a) = some x := h
      rcases pyMin_foldl_split key l' a x h' with ⟨hx, hall⟩ |
        ⟨l₁, l₂, hsplit, hxa, h1, h2⟩
      · subst hx
        exact ⟨[], l', by simp, by simp, hall⟩
      · refine ⟨a :: l₁, l₂, by simp [hsplit], ?_, h2⟩
        intro y hy
        rcases List.mem_cons.mp hy with hy | hy
        · subst hy
          exact hxa
        · exact h1 y hy

theorem pyMin_isSome {key : Nat → Nat} :
    ∀ (l : List Nat) (m : Nat), ∃ x,
      l.foldl
        (fun acc x =>
          match acc with
          | none => some x
          | some m => if key x < key m then some x else some m)
        (some m) = some x := by
  intro l
  induction l with
  | nil => intro m; exact ⟨m, rfl⟩
  | cons a l ih =>
      intro m
      by_cases hlt : key a < key m <;>
        simp only [List.foldl_cons, hlt, if_pos, if_neg, if_false] <;>
        apply ih

theorem pyMin_eq_none_iff {key : Nat → Nat} {l : List Nat} :
    pyMin key l = none ↔ l = [] := by
  constructor
  · intro h
    match l with
    | [] => rfl
    | a :: l' =>
        obtain ⟨x, hx⟩ := @pyMin_isSome key l' a
        have : pyMin key (a :: l') = some x := hx
        rw [this] at h
        cases h
  · intro h
    subst h
    rfl

theorem filter_split {p : Nat → Bool} :
    ∀ {l f₁ f₂ : List Nat} {x : Nat}, l.filter p = f₁ ++ x :: f₂ →
      ∃ l₁ l₂, l = l₁ ++ x :: l₂ ∧ l₁.filter p = f₁ ∧ l₂.filter p = f₂ := by
  intro l
  induction l with
  | nil =>
      intro f₁ f₂ x h
      simp at h
  | cons a l ih =>
      intro f₁ f₂ x h
      by_cases pa : p a
      · rw [List.filter_cons_of_pos pa] at h
        match f₁ with
        | [] =>
            simp at h
            obtain ⟨hax, hfl⟩ := h
            exact ⟨[], l, by simp [hax], rfl, hfl⟩
        | b :: f₁' =>
            simp at h
            obtain ⟨hab, hfl⟩ := h
            obtain ⟨l₁, l₂, hl, hf1, hf2⟩ := ih hfl
            refine ⟨a :: l₁, l₂, by simp [hl], ?_, hf2⟩
            rw [List.filter_cons_of_pos pa, hf1, hab]
      · rw [List.filter_cons_of_neg pa] at h
        obtain ⟨l₁, l₂, hl, hf1, hf2⟩ := ih h
        refine ⟨a :: l₁, l₂, by simp [hl], ?_, hf2⟩
        rw [List.filter_cons_of_neg pa, hf1]

/-- C4 (amended): `SJF.get_next_process` returns no process exactly when
no admitted process is ready, and otherwise returns the first-admitted
(earliest-queued) ready process of minimum `remaining_time`: every ready
process queued before it has strictly larger remaining time, and every
ready process queued after it has no smaller remaining time.  Ties are
broken by admission order, not by arrival time or pid. -/
theorem sjf_selects_min_remaining (store : Store) (s : SJF) (t : Nat) :
    ((SJF.get_next_process store s t).1 = none ↔
      ∀ i ∈ s.queue, ¬ ready store t i) ∧
    ∀ i, (SJF.get_next_process store s t).1 = some i →
      ready store t i ∧
      ∃ q₁ q₂, s.queue = q₁ ++ i :: q₂ ∧
        (∀ j ∈ q₁, ready store t j →
          (getP store i).remaining_time < (getP store j).remaining_time) ∧
        (∀ j ∈ q₂, ready store t j →
          (getP store i).remaining_time ≤ (getP store j).remaining_time) := by
  constructor
  · rw [SJF.get_next_process, pyMin_eq_none_iff, List.filter_eq_nil_iff]
    constructor
    · intro h i hi hr
      exact absurd (by simpa [readyB] using hr) (h i hi)
    · intro h i hi
      simp only [readyB, decide_eq_true_eq]
      exact h i hi
  · intro i h
    rw [SJF.get_next_process] at h
    obtain ⟨f₁, f₂, hsplit, h1, h2⟩ := pyMin_split h
    have hrdy : ready store t i := by
      have hmem : i ∈ s.queue.filter (readyB store t) := by
        rw [hsplit]
        simp
      simpa [readyB] using (List.mem_filter.mp hmem).2
    obtain ⟨q₁, q₂, hq, hq1, hq2⟩ := filter_split hsplit
    refine ⟨hrdy, q₁, q₂, hq, ?_, ?_⟩
    · intro j hj hjr
      have : j ∈ f₁ := by
        rw [← hq1]
        exact List.mem_filter.mpr ⟨hj, by simpa [readyB] using hjr⟩
      exact h1 j this
    · intro j hj hjr
      have : j ∈ f₂ := by
        rw [← hq2]
        exact List.mem_filter.mpr ⟨hj, by simpa [readyB] using hjr⟩
      exact h2 j this

/-- C4 witness: the amended selection rule applied to the tie scenario of
the counterexample — index 0 (pid 5) is taken, with the tie broken by
admission order. -/
theorem sjf_selects_min_remaining_witness :
    ready [mkProcess 5 0 2, mkProcess 1 0 2] 0 0 ∧
    ∃ q₁ q₂, (SJF.mk [0, 1] [1, 5]).queue = q₁ ++ 0 :: q₂ ∧
      (∀ j ∈ q₁, ready [mkProcess 5 0 2, mkProcess 1 0 2] 0 j →
        (getP [mkProcess 5 0 2, mkProcess 1 0 2] 0).remaining_time <
          (getP [mkProcess 5 0 2, mkProcess 1 0 2] j).remaining_time) ∧
      (∀ j ∈ q₂, ready [mkProcess 5 0 2, mkProcess 1 0 2] 0 j →
        (getP [mkProcess 5 0 2, mkProcess 1 0 2] 0).remaining_time ≤
          (getP [mkProcess 5 0 2, mkProcess 1 0 2] j).remaining_time) :=
  (sjf_selects_min_remaining [mkProcess 5 0 2, mkProcess 1 0 2]
    (SJF.mk [0, 1] [1, 5]) 0).2 0 rfl

/-! ## Dispatcher partitioning (C7) -/

theorem mem_corePart_iff {n : Nat} {l : Store} {c : Nat} {x : Process} :
    x ∈ corePart n l c ↔ ∃ i, i % n = c ∧ l[i]? = some x := by
  unfold corePart
  rw [List.mem_map]
  constructor
  · rintro ⟨q, hq, hsnd⟩
    obtain ⟨hqe, hqc⟩ := List.mem_filter.mp hq
    have hget := List.mem_enum_iff_getElem?.mp hqe
    rw [hsnd] at hget
    exact ⟨q.1, by simpa using hqc, hget⟩
  · rintro ⟨i, hc, hi⟩
    exact ⟨(i, x),
      List.mem_filter.mpr
        ⟨List.mem_enum_iff_getElem?.mpr (by simpa using hi), by simpa using hc⟩,
      rfl⟩

/-- C7: with at least one core, `MultiCoreCPU.run` sorts the input stably
by arrival time, assigns the process at sorted index `i` to core
`i mod num_cores`, runs each core on its slice and returns exactly
`num_cores` per-core timelines in core order; under unique pids the
per-core slices are pairwise disjoint. -/
theorem dispatcher_partition (pol : Policy) (n : Nat) (procs : Store)
    (hn : 1 ≤ n) (hnd : (procs.map Process.pid).Nodup) :
    MultiCoreCPU_run pol n procs =
      .ok ((List.range n).map (fun c =>
        (runCore pol (corePart n (sortByArrival procs) c)).timeline)) ∧
    ((List.range n).map (fun c =>
        (runCore pol (corePart n (sortByArrival procs) c)).timeline)).length
      = n ∧
    (sortByArrival procs).Perm procs ∧
    List.Sorted byArrival (sortByArrival procs) ∧
    (∀ c (x : Process), x ∈ corePart n (sortByArrival procs) c ↔
      ∃ i, i % n = c ∧ (sortByArrival procs)[i]? = some x) ∧
    (∀ c₁ c₂, c₁ ≠ c₂ → ∀ pd : Int,
      pd ∈ (corePart n (sortByArrival procs) c₁).map Process.pid →
      pd ∉ (corePart n (sortByArrival procs) c₂).map Process.pid) := by
  have hcond : ¬(n = 0 ∧ procs ≠ []) := by
    rintro ⟨h0, -⟩
    omega
  refine ⟨by simp [MultiCoreCPU_run, hcond], by simp, ?_, ?_, ?_, ?_⟩
  · exact List.perm_insertionSort byArrival procs
  · exact List.sorted_insertionSort byArrival procs
  · intro c x
    exact mem_corePart_iff
  · intro c₁ c₂ hne pd h1 h2
    have hperm : (sortByArrival procs).Perm procs :=
      List.perm_insertionSort byArrival procs
    have hnd' : ((sortByArrival procs).map Process.pid).Nodup :=
      (hperm.map Process.pid).nodup_iff.mpr hnd
    obtain ⟨p₁, hp₁, hpd₁⟩ := List.mem_map.mp h1
    obtain ⟨p₂, hp₂, hpd₂⟩ := List.mem_map.mp h2
    obtain ⟨i₁, hc₁, hi₁⟩ := mem_corePart_iff.mp hp₁
    obtain ⟨i₂, hc₂, hi₂⟩ := mem_corePart_iff.mp hp₂
    obtain ⟨hl₁, he₁⟩ := List.getElem?_eq_some_iff.mp hi₁
    obtain ⟨hl₂, he₂⟩ := List.getElem?_eq_some_iff.mp hi₂
    have hmap : ((sortByArrival procs).map Process.pid).get ⟨i₁, by simpa⟩ =
        ((sortByArrival procs).map Process.pid).get ⟨i₂, by simpa⟩ := by
      simp only [List.get_eq_getElem, List.getElem_map]
      rw [he₁, he₂, hpd₁, hpd₂]
    have : i₁ = i₂ := (hnd'.getElem_inj_iff).mp hmap
    subst this
    exact hne (hc₁ ▸ hc₂ ▸ rfl)

/-- C7 witness: the dispatcher theorem applied to two FCFS cores and four
processes with distinct arrival times. -/
theorem dispatcher_partition_witness :
    MultiCoreCPU_run .fcfs 2
      [mkProcess 0 0 2, mkProcess 1 1 2, mkProcess 2 2 1, mkProcess 3 3 1] =
      .ok ((List.range 2).map (fun c =>
        (runCore .fcfs (corePart 2 (sortByArrival
          [mkProcess 0 0 2, mkProcess 1 1 2, mkProcess 2 2 1,
           mkProcess 3 3 1]) c)).timeline)) :=
  (dispatcher_partition .fcfs 2
    [mkProcess 0 0 2, mkProcess 1 1 2, mkProcess 2 2 1, mkProcess 3 3 1]
    (by decide) (by decide)).1

/-! ## Absence of configuration validation (C8) -/

theorem runCore_nil_timeline (pol : Policy) : (runCore pol []).timeline = [] := by
  unfold runCore coreRunState
  rw [coreLoop_freeze]
  · rfl
  · simp [initCore]

/-- C8 (amended): no configuration is rejected.  An empty process set
yields a normal `ok` result with `num_cores` empty timelines; zero cores
with a nonempty process list crashes with an unhandled `ZeroDivisionError`
during partitioning (zero cores with an empty list returns `ok []`); and a
non-positive round-robin quantum is accepted and simulated normally, every
slice lasting one tick. -/
theorem no_config_validation :
    (∀ (pol : Policy) (n : Nat),
      MultiCoreCPU_run pol n [] = .ok (List.replicate n [])) ∧
    (∀ (pol : Policy) (procs : Store), procs ≠ [] →
      MultiCoreCPU_run pol 0 procs = .error "ZeroDivisionError") ∧
    MultiCoreCPU_run (.rr 0) 1 [mkProcess 0 0 2, mkProcess 1 0 2] =
      .ok [[(0, 0), (1, 1), (2, 0), (3, 1)]] := by
  refine ⟨?_, ?_, rfl⟩
  · intro pol n
    have hpart : ∀ c, corePart n (sortByArrival []) c = [] := by
      intro c
      simp [sortByArrival, List.insertionSort, corePart]
    have : MultiCoreCPU_run pol n [] =
        .ok ((List.range n).map
          (fun c => (runCore pol (corePart n (sortByArrival []) c)).timeline)) := by
      simp [MultiCoreCPU_run]
    rw [this]
    congr 1
    rw [List.eq_replicate_iff]
    refine ⟨by simp, ?_⟩
    intro b hb
    obtain ⟨c, -, hc⟩ := List.mem_map.mp hb
    rw [← hc, hpart c, runCore_nil_timeline]
  · intro pol procs hne
    simp [MultiCoreCPU_run, hne]

/-- C8 witness: zero cores with a nonempty process list crash with the
(unhandled) division error rather than a validated rejection. -/
theorem no_config_validation_witness :
    MultiCoreCPU_run .fcfs 0 [mkProcess 0 0 1] = .error "ZeroDivisionError" :=
  no_config_validation.2.1 .fcfs [mkProcess 0 0 1] (by decide)

/-! ## The per-iteration view of a run (states `stAt k`) -/

theorem execTick_timeline_eq (S : Scheduler σ) (st : CoreState σ) :
    (execTick S st).timeline = st.timeline ++ [(st.time, tickPid S st)] := by
  unfold execTick tickPid
  rcases h : S.getNext st.store st.sched st.time with ⟨r, s'⟩
  rcases r with _ | i <;> simp [h]

theorem coreStep_timeline_eq (S : Scheduler σ) (st : CoreState σ) :
    (coreStep S st).timeline =
      st.timeline ++ [(st.time, tickPid S (admitAll S st))] := by
  rw [coreStep, execTick_timeline_eq, (admitAll_fields S st).2.1,
    (admitAll_fields S st).2.2.1]

theorem runCore_eq_stAt (pol : Policy) (procs : Store) :
    runCore pol procs = stAt pol.sched pol.init procs (maxTimeOf procs) := rfl

theorem stAt_succ (S : Scheduler σ) (s0 : σ) (procs : Store) (k : Nat) :
    stAt S s0 procs (k + 1) =
      if (stAt S s0 procs k).completed < procs.length ∧
          (stAt S s0 procs k).time < maxTimeOf procs
      then coreStep S (stAt S s0 procs k) else stAt S s0 procs k := by
  have heq : stAt S s0 procs (k + 1) =
      coreLoop S procs.length (maxTimeOf procs) 1 (stAt S s0 procs k) := by
    rw [stAt, stAt, ← coreLoop_add]
  rw [heq]
  by_cases h : (stAt S s0 procs k).completed < procs.length ∧
      (stAt S s0 procs k).time < maxTimeOf procs
  · rw [if_pos h]
    simp only [coreLoop, h, and_self, if_true]
  · rw [if_neg h]
    exact coreLoop_freeze _ _ _ _ _ h

theorem stAt_freeze (S : Scheduler σ) (s0 : σ) (procs : Store) {k m : Nat}
    (h : ¬((stAt S s0 procs k).completed < procs.length ∧
      (stAt S s0 procs k).time < maxTimeOf procs))
    (hkm : k ≤ m) : stAt S s0 procs m = stAt S s0 procs k := by
  obtain ⟨d, rfl⟩ := Nat.exists_eq_add_of_le hkm
  show coreLoop S procs.length (maxTimeOf procs) (k + d) (initCore s0 procs) =
    stAt S s0 procs k
  rw [coreLoop_add]
  exact coreLoop_freeze S procs.length (maxTimeOf procs) d _ h

theorem stAt_time_le (S : Scheduler σ) (s0 : σ) (procs : Store) (k : Nat) :
    (stAt S s0 procs k).time ≤ k := by
  induction k with
  | zero => simp [stAt, coreLoop, initCore]
  | succ n ih =>
      rw [stAt_succ]
      by_cases h : (stAt S s0 procs n).completed < procs.length ∧
          (stAt S s0 procs n).time < maxTimeOf procs
      · rw [if_pos h, coreStep_time]
        omega
      · rw [if_neg h]
        omega

theorem stAt_len (S : Scheduler σ) (s0 : σ) (procs : Store) (k : Nat) :
    (stAt S s0 procs k).timeline.length = (stAt S s0 procs k).time := by
  have := coreLoop_timeline_time S procs.length (maxTimeOf procs) k
    (initCore s0 procs)
  simpa [stAt, initCore] using this

theorem stAt_cond_time (S : Scheduler σ) (s0 : σ) (procs : Store) {k : Nat}
    (h : (stAt S s0 procs k).completed < procs.length ∧
      (stAt S s0 procs k).time < maxTimeOf procs) :
    (stAt S s0 procs k).time = k := by
  induction k with
  | zero => simp [stAt, coreLoop, initCore]
  | succ n ih =>
      by_cases hn : (stAt S s0 procs n).completed < procs.length ∧
          (stAt S s0 procs n).time < maxTimeOf procs
      · rw [stAt_succ, if_pos hn, coreStep_time, ih hn]
      · rw [stAt_succ, if_neg hn] at h
        exact absurd h hn

theorem stAt_prefix (S : Scheduler σ) (s0 : σ) (procs : Store) {k m : Nat}
    (hkm : k ≤ m) :
    (stAt S s0 procs k).timeline <+: (stAt S s0 procs m).timeline := by
  induction m with
  | zero =>
      have : k = 0 := by omega
      subst this
      exact List.prefix_refl _
  | succ n ih =>
      by_cases hk : k = n + 1
      · subst hk
        exact List.prefix_refl _
      · have hkn : k ≤ n := by omega
        have h1 := ih hkn
        rw [stAt_succ]
        by_cases h : (stAt S s0 procs n).completed < procs.length ∧
            (stAt S s0 procs n).time < maxTimeOf procs
        · rw [if_pos h, coreStep_timeline_eq]
          exact h1.trans (List.prefix_append _ _)
        · rwa [if_neg h]

/-- Characterization of the timeline entry at index `t` of any run state:
the entry exists exactly while the loop is still running at iteration `t`,
it is stamped with time `t`, and it records `tickPid` of the post-admission
call state. -/
theorem stAt_entry (S : Scheduler σ) (s0 : σ) (procs : Store) {N t : Nat}
    (h : t < (stAt S s0 procs N).timeline.length) :
    (stAt S s0 procs N).timeline[t]? =
      some (t, tickPid S (admitAll S (stAt S s0 procs t))) ∧
    ((stAt S s0 procs t).completed < procs.length ∧
      (stAt S s0 procs t).time < maxTimeOf procs) ∧
    (stAt S s0 procs t).time = t := by
  have hlenN := stAt_len S s0 procs N
  have htN := stAt_time_le S s0 procs N
  have htlt : t < N := by omega
  have hcond : (stAt S s0 procs t).completed < procs.length ∧
      (stAt S s0 procs t).time < maxTimeOf procs := by
    by_contra hnc
    have hfr := stAt_freeze S s0 procs hnc (le_of_lt htlt)
    rw [hfr] at h hlenN
    have := stAt_time_le S s0 procs t
    omega
  have htime := stAt_cond_time S s0 procs hcond
  have hstep : stAt S s0 procs (t + 1) = coreStep S (stAt S s0 procs t) := by
    rw [stAt_succ, if_pos hcond]
  have htl : (stAt S s0 procs (t + 1)).timeline =
      (stAt S s0 procs t).timeline ++
        [(t, tickPid S (admitAll S (stAt S s0 procs t)))] := by
    rw [hstep, coreStep_timeline_eq, htime]
  have hlent : (stAt S s0 procs t).timeline.length = t := by
    rw [stAt_len, htime]
  have hget1 : (stAt S s0 procs (t + 1)).timeline[t]? =
      some (t, tickPid S (admitAll S (stAt S s0 procs t))) := by
    have := List.getElem?_concat_length (stAt S s0 procs t).timeline
      (t, tickPid S (admitAll S (stAt S s0 procs t)))
    rw [hlent] at this
    rw [htl]
    exact this
  have hpre : (stAt S s0 procs (t + 1)).timeline <+:
      (stAt S s0 procs N).timeline := stAt_prefix S s0 procs (by omega)
  have hlt1 : t < (stAt S s0 procs (t + 1)).timeline.length := by
    rw [htl, List.length_append, hlent]
    simp
  refine ⟨?_, hcond, htime⟩
  rw [List.getElem?_eq_getElem h]
  rw [List.getElem?_eq_getElem hlt1] at hget1
  rw [← hpre.getElem hlt1]
  exact hget1

/-! ## Per-policy facts about `get_next_process` -/

theorem fcfs_getNext_none {store : Store} {s : FCFS} {t : Nat}
    (h : (FCFS.get_next_process store s t).1 = none) :
    ∀ i ∈ s.queue, ¬ ready store t i := by
  intro i hi
  have := List.find?_eq_none.mp h i hi
  simpa [readyB] using this

theorem fcfs_getNext_some {store : Store} {s : FCFS} {t : Nat} {i : Nat}
    (h : (FCFS.get_next_process store s t).1 = some i) :
    i ∈ s.queue ∧ ready store t i :=
  ⟨List.mem_of_find?_eq_some h, by simpa [readyB] using List.find?_some h⟩

theorem sjf_getNext_none {store : Store} {s : SJF} {t : Nat}
    (h : (SJF.get_next_process store s t).1 = none) :
    ∀ i ∈ s.queue, ¬ ready store t i := by
  intro i hi hr
  have hempty := pyMin_eq_none_iff.mp h
  have hmem : i ∈ s.queue.filter (readyB store t) :=
    List.mem_filter.mpr ⟨hi, by simpa [readyB] using hr⟩
  rw [hempty] at hmem
  simp at hmem

theorem sjf_getNext_some {store : Store} {s : SJF} {t : Nat} {i : Nat}
    (h : (SJF.get_next_process store s t).1 = some i) :
    i ∈ s.queue ∧ ready store t i := by
  have hm := pyMin_mem h
  have := List.mem_filter.mp hm
  exact ⟨this.1, by simpa [readyB] using this.2⟩

theorem rrScan_none {store : Store} {t : Nat} :
    ∀ {k : Nat} {q q' : List Nat}, rrScan store t k q = (none, q') →
      ∀ i ∈ q.take k, ¬ ready store t i := by
  intro k
  induction k with
  | zero => intro q q' h i hi; simp at hi
  | succ n ih =>
      intro q q' h i hi
      match q with
      | [] => simp at hi
      | a :: rest =>
          by_cases ha : readyB store t a
          · simp [rrScan, ha] at h
          · simp only [rrScan, ha, Bool.false_eq_true, if_false] at h
            rw [List.take_succ_cons] at hi
            rcases List.mem_cons.mp hi with hia | hia
            · subst hia
              simpa [readyB] using ha
            · refine ih h i ?_
              rw [List.take_append_eq_append_take]
              exact List.mem_append_left _ hia

theorem rrScan_mem {store : Store} {t : Nat} :
    ∀ {k : Nat} {q : List Nat} (x : Nat),
      x ∈ (rrScan store t k q).2 ↔ x ∈ q := by
  intro k
  induction k with
  | zero => intro q x; rfl
  | succ n ih =>
      intro q x
      match q with
      | [] => rfl
      | a :: rest =>
          by_cases ha : readyB store t a
          · simp only [rrScan, ha, if_true]
            simp [List.mem_append, List.mem_cons, or_comm]
          · simp only [rrScan, ha, Bool.false_eq_true, if_false]
            rw [ih x]
            simp [List.mem_append, List.mem_cons, or_comm]

theorem rr_getNext_facts (store : Store) (s : RoundRobin) (t : Nat) :
    ((RoundRobin.get_next_process store s t).2).processed_pids =
      s.processed_pids ∧
    (∀ x, x ∈ ((RoundRobin.get_next_process store s t).2).queue ↔
      x ∈ s.queue) ∧
    ((RoundRobin.get_next_process store s t).1 = none →
      ∀ i ∈ s.queue, ¬ ready store t i) ∧
    (∀ i, (RoundRobin.get_next_process store s t).1 = some i →
      (i ∈ s.queue ∧ ready store t i) ∨
      (s.current_process = some i ∧
        1 < (getP store i).remaining_time)) ∧
    (∀ c, ((RoundRobin.get_next_process store s t).2).current_process =
        some c →
      (RoundRobin.get_next_process store s t).1 = some c) := by
  by_cases hq : s.queue = []
  · have hr : RoundRobin.get_next_process store s t =
        (none, { s with current_process := none, current_runtime := 0 }) := by
      simp [RoundRobin.get_next_process, hq]
    rw [hr]
    refine ⟨rfl, fun x => Iff.rfl, ?_, ?_, ?_⟩
    · intro h i hi
      rw [hq] at hi
      simp at hi
    · intro i h
      simp at h
    · intro c h
      simp at h
  · rcases hc : s.current_process with _ | c
    · rcases hscan : rrScan store t s.queue.length s.queue with ⟨r, q'⟩
      rcases r with _ | i
      · have hr : RoundRobin.get_next_process store s t =
            (none, { s with queue := q' }) := by
          simp only [RoundRobin.get_next_process, hq, if_false, hc, hscan]
        rw [hr]
        refine ⟨rfl, ?_, ?_, ?_, ?_⟩
        · intro x
          have := @rrScan_mem store t s.queue.length s.queue x
          rw [hscan] at this
          exact this
        · intro h i hi
          have := rrScan_none hscan
          rw [List.take_length] at this
          exact this i hi
        · intro i h
          simp at h
        · intro c h
          simp only at h
          rw [hc] at h
          simp at h
      · have hr : RoundRobin.get_next_process store s t =
            (some i, { s with queue := q', current_process := some i,
                              current_runtime := 1 }) := by
          simp only [RoundRobin.get_next_process, hq, if_false, hc, hscan]
        rw [hr]
        obtain ⟨hrdy, hmem⟩ := rrScan_some hscan
        refine ⟨rfl, ?_, ?_, ?_, ?_⟩
        · intro x
          have := @rrScan_mem store t s.queue.length s.queue x
          rw [hscan] at this
          exact this
        · intro h
          simp at h
        · intro j h
          simp only [Option.some.injEq] at h
          subst h
          exact Or.inl ⟨hmem, by simpa [readyB] using hrdy⟩
        · intro cx h
          simp only [Option.some.injEq] at h
          subst h
          rfl
    · by_cases hpre : s.quantum ≤ s.current_runtime + 1 ∨
          (getP store c).remaining_time ≤ 1
      · rcases hscan : rrScan store t s.queue.length s.queue with ⟨r, q'⟩
        rcases r with _ | i
        · have hr : RoundRobin.get_next_process store s t =
              (none, { s with queue := q', current_process := none,
                               current_runtime := 0 }) := by
            simp only [RoundRobin.get_next_process, hq, if_false, hc, hpre,
              if_true, hscan]
          rw [hr]
          refine ⟨rfl, ?_, ?_, ?_, ?_⟩
          · intro x
            have := @rrScan_mem store t s.queue.length s.queue x
            rw [hscan] at this
            exact this
          · intro h i hi
            have := rrScan_none hscan
            rw [List.take_length] at this
            exact this i hi
          · intro i h
            simp at h
          · intro cx h
            simp at h
        · have hr : RoundRobin.get_next_process store s t =
              (some i, { s with queue := q', current_process := some i,
                                current_runtime := 1 }) := by
            simp only [RoundRobin.get_next_process, hq, if_false, hc, hpre,
              if_true, hscan]
          rw [hr]
          obtain ⟨hrdy, hmem⟩ := rrScan_some hscan
          refine ⟨rfl, ?_, ?_, ?_, ?_⟩
          · intro x
            have := @rrScan_mem store t s.queue.length s.queue x
            rw [hscan] at this
            exact this
          · intro h
            simp at h
          · intro j h
            simp only [Option.some.injEq] at h
            subst h
            exact Or.inl ⟨hmem, by simpa [readyB] using hrdy⟩
          · intro cx h
            simp only [Option.some.injEq] at h
            subst h
            rfl
      · have hr : RoundRobin.get_next_process store s t =
            (some c, { s with current_runtime := s.current_runtime + 1 }) := by
          simp only [RoundRobin.get_next_process, hq, if_false, hc, hpre,
            if_false]
        rw [hr]
        push_neg at hpre
        refine ⟨rfl, fun x => Iff.rfl, ?_, ?_, ?_⟩
        · intro h
          simp at h
        · intro j h
          simp only [Option.some.injEq] at h
          refine Or.inr ⟨?_, ?_⟩
          · rw [h]
          · rw [← h]
            omega
        · intro cx h
          simp only at h
          show some c = some cx
          rw [← hc, h]

theorem pol_getNext_pids (pol : Policy) (store : Store) (s : pol.State)
    (t : Nat) :
    pol.pidsOf ((pol.sched.getNext store s t).2) = pol.pidsOf s := by
  cases pol with
  | fcfs => rfl
  | sjf => rfl
  | rr q => exact (rr_getNext_facts store s t).1

theorem pol_getNext_queue_mem (pol : Policy) (store : Store) (s : pol.State)
    (t : Nat) (x : Nat) :
    x ∈ pol.queueOf ((pol.sched.getNext store s t).2) ↔
      x ∈ pol.queueOf s := by
  cases pol with
  | fcfs => exact Iff.rfl
  | sjf => exact Iff.rfl
  | rr q => exact (rr_getNext_facts store s t).2.1 x

theorem pol_getNext_none (pol : Policy) (store : Store) (s : pol.State)
    (t : Nat) (h : (pol.sched.getNext store s t).1 = none) :
    ∀ i ∈ pol.queueOf s, ¬ ready store t i := by
  cases pol with
  | fcfs => exact fcfs_getNext_none h
  | sjf => exact sjf_getNext_none h
  | rr q => exact (rr_getNext_facts store s t).2.2.1 h

theorem pol_getNext_some (pol : Policy) (st : CoreState pol.State) {i : Nat}
    (hex : pol.extraInv st)
    (h : (pol.sched.getNext st.store st.sched st.time).1 = some i) :
    i ∈ pol.queueOf st.sched ∧ ready st.store st.time i := by
  cases pol with
  | fcfs => exact fcfs_getNext_some h
  | sjf => exact sjf_getNext_some h
  | rr q =>
      rcases (rr_getNext_facts st.store st.sched st.time).2.2.2.1 i h with
        ⟨hm, hr⟩ | ⟨hcur, hrem⟩
      · exact ⟨hm, hr⟩
      · obtain ⟨hmem, harr⟩ := hex i hcur
        exact ⟨hmem, harr, by omega⟩

/-! ## Preservation of the bookkeeping invariant -/

theorem addProcess_pids (pol : Policy) (store : Store) (s : pol.State)
    {i : Nat} (hnp : (getP store i).pid ∉ pol.pidsOf s) :
    pol.pidsOf (pol.sched.addProcess store s i) =
      (getP store i).pid :: pol.pidsOf s := by
  cases pol with
  | fcfs =>
      simp only [Policy.pidsOf] at hnp
      show (FCFS.add_process store s i).processed_pids = _
      rw [FCFS.add_process, if_neg hnp]
      rfl
  | sjf =>
      simp only [Policy.pidsOf] at hnp
      show (SJF.add_process store s i).processed_pids = _
      rw [SJF.add_process, if_neg hnp]
      rfl
  | rr q =>
      simp only [Policy.pidsOf] at hnp
      show (RoundRobin.add_process store s i).processed_pids = _
      rw [RoundRobin.add_process, if_neg hnp]
      rfl

theorem addProcess_queue_mem (pol : Policy) (store : Store) (s : pol.State)
    {i : Nat} (hnp : (getP store i).pid ∉ pol.pidsOf s) (x : Nat) :
    x ∈ pol.queueOf (pol.sched.addProcess store s i) ↔
      x ∈ pol.queueOf s ∨ x = i := by
  cases pol with
  | fcfs =>
      simp only [Policy.pidsOf] at hnp
      show x ∈ (FCFS.add_process store s i).queue ↔ _
      rw [FCFS.add_process, if_neg hnp]
      rw [(List.perm_insertionSort (arrLe store) (s.queue ++ [i])).mem_iff]
      simp [Policy.queueOf]
  | sjf =>
      simp only [Policy.pidsOf] at hnp
      show x ∈ (SJF.add_process store s i).queue ↔ _
      rw [SJF.add_process, if_neg hnp]
      simp [Policy.queueOf]
  | rr q =>
      simp only [Policy.pidsOf] at hnp
      show x ∈ (RoundRobin.add_process store s i).queue ↔ _
      rw [RoundRobin.add_process, if_neg hnp]
      simp [Policy.queueOf]

theorem addProcess_current (store : Store) (s : RoundRobin) (i : Nat) :
    (RoundRobin.add_process store s i).current_process =
      s.current_process := by
  rw [RoundRobin.add_process]
  split <;> rfl

theorem admitOne_invGen (pol : Policy) (procs : Store)
    (hnd : (procs.map Process.pid).Nodup) (st : CoreState pol.State)
    {i : Nat} (hi : i < st.store.length)
    (hinv : CoreInvGen procs pol st) :
    CoreInvGen procs pol (admitOne pol.sched st i) := by
  obtain ⟨hsb, hpids, hqueue, hex⟩ := hinv
  by_cases hcond : (getP st.store i).arrival_time ≤ st.time ∧
      (getP st.store i).pid ∉ st.added ∧
      (getP st.store i).completion_time = none
  swap
  · rw [admitOne, if_neg hcond]
    exact ⟨hsb, hpids, hqueue, hex⟩
  · have hnp : (getP st.store i).pid ∉ pol.pidsOf st.sched := fun hmem =>
      hcond.2.1 ((hpids _).mp hmem)
    rw [admitOne, if_pos hcond]
    refine ⟨hsb, ?_, ?_, ?_⟩
    · intro x
      show x ∈ pol.pidsOf (pol.sched.addProcess st.store st.sched i) ↔ _
      rw [addProcess_pids pol st.store st.sched hnp]
      simp only [List.mem_cons, List.mem_append, List.mem_singleton]
      rw [hpids x]
      tauto
    · intro j
      show j ∈ pol.queueOf (pol.sched.addProcess st.store st.sched i) ↔ _
      rw [addProcess_queue_mem pol st.store st.sched hnp j]
      constructor
      · rintro (hj | rfl)
        · obtain ⟨hlt, hmem⟩ := (hqueue j).mp hj
          exact ⟨hlt, by simp [hmem]⟩
        · exact ⟨hi, by simp⟩
      · rintro ⟨hlt, hmem⟩
        have hlt' : j < st.store.length := hlt
        simp only [List.mem_append, List.mem_singleton] at hmem
        rcases hmem with hmem | hmem
        · exact Or.inl ((hqueue j).mpr ⟨hlt', hmem⟩)
        · right
          by_contra hne
          have hjp : j < procs.length := by
            have := hsb.1
            omega
          have hip : i < procs.length := by
            have := hsb.1
            omega
          have := pid_ne_of_index_ne hnd hjp hip hne
          rw [← hsb.2.1 j, ← hsb.2.1 i] at this
          exact this hmem
    · cases pol with
      | fcfs => trivial
      | sjf => trivial
      | rr q =>
          intro c hcur
          have hc0 : st.sched.current_process = some c := by
            rw [← addProcess_current st.store st.sched i]
            exact hcur
          obtain ⟨hmem, harr⟩ := hex c hc0
          exact ⟨(addProcess_queue_mem (Policy.rr q) st.store st.sched hnp
            c).mpr (Or.inl hmem), harr⟩

theorem foldl_admitOne_invGen (pol : Policy) (procs : Store)
    (hnd : (procs.map Process.pid).Nodup) :
    ∀ (l : List Nat) (st : CoreState pol.State),
      (∀ j ∈ l, j < st.store.length) → CoreInvGen procs pol st →
      CoreInvGen procs pol (l.foldl (admitOne pol.sched) st) := by
  intro l
  induction l with
  | nil => intro st _ h; exact h
  | cons a l ih =>
      intro st hl h
      rw [List.foldl_cons]
      refine ih (admitOne pol.sched st a) ?_
        (admitOne_invGen pol procs hnd st (hl a (by simp)) h)
      intro j hj
      rw [(admitOne_fields pol.sched st a).1]
      exact hl j (by simp [hj])

theorem admitAll_invGen (pol : Policy) (procs : Store)
    (hnd : (procs.map Process.pid).Nodup) (st : CoreState pol.State)
    (h : CoreInvGen procs pol st) :
    CoreInvGen procs pol (admitAll pol.sched st) :=
  foldl_admitOne_invGen pol procs hnd _ st
    (fun j hj => List.mem_range.mp hj) h

theorem execTick_invGen (pol : Policy) (procs : Store)
    (hnd : (procs.map Process.pid).Nodup) (st : CoreState pol.State)
    (hinv : CoreInvGen procs pol st) :
    CoreInvGen procs pol (execTick pol.sched st) := by
  obtain ⟨hsb, hpids, hqueue, hex⟩ := hinv
  rcases h : pol.sched.getNext st.store st.sched st.time with ⟨r, s'⟩
  have hpids' : pol.pidsOf s' = pol.pidsOf st.sched := by
    have := pol_getNext_pids pol st.store st.sched st.time
    rw [h] at this
    exact this
  have hqmem' : ∀ x, x ∈ pol.queueOf s' ↔ x ∈ pol.queueOf st.sched := by
    intro x
    have := pol_getNext_queue_mem pol st.store st.sched st.time x
    rw [h] at this
    exact this
  rcases r with _ | i
  · simp only [execTick, h]
    refine ⟨hsb, ?_, ?_, ?_⟩
    · intro x
      show x ∈ pol.pidsOf s' ↔ x ∈ st.added
      rw [hpids']
      exact hpids x
    · intro j
      show j ∈ pol.queueOf s' ↔ j < st.store.length ∧ _
      rw [hqmem' j]
      exact hqueue j
    · cases pol with
      | fcfs => trivial
      | sjf => trivial
      | rr q =>
          intro c hcur
          have hfst : (RoundRobin.get_next_process st.store st.sched
              st.time).1 = none := congrArg Prod.fst h
          have hsnd : (RoundRobin.get_next_process st.store st.sched
              st.time).2 = s' := congrArg Prod.snd h
          have hret := (rr_getNext_facts st.store st.sched st.time).2.2.2.2 c
            (by rw [hsnd]; exact hcur)
          rw [hfst] at hret
          cases hret
  · simp only [execTick, h]
    have hsome : (pol.sched.getNext st.store st.sched st.time).1 = some i :=
      by rw [h]
    obtain ⟨hmemq, hrdy⟩ := pol_getNext_some pol st hex hsome
    have hilt : i < st.store.length := ((hqueue i).mp hmemq).1
    have hef := execProc_fields st.time (getP st.store i)
    have hpid_pres : ∀ k,
        (getP (st.store.set i (execProc st.time (getP st.store i))) k).pid =
        (getP st.store k).pid := by
      intro k
      by_cases hik : i = k
      · subst hik
        rw [getP_set_same hilt, hef.1]
      · rw [getP_set_ne hik]
    have harr_pres : ∀ k,
        (getP (st.store.set i (execProc st.time (getP st.store i)))
          k).arrival_time = (getP st.store k).arrival_time := by
      intro k
      by_cases hik : i = k
      · subst hik
        rw [getP_set_same hilt, hef.2.1]
      · rw [getP_set_ne hik]
    refine ⟨⟨by simpa using hsb.1,
      fun k => by rw [hpid_pres k]; exact hsb.2.1 k,
      fun k => by rw [harr_pres k]; exact hsb.2.2 k⟩, ?_, ?_, ?_⟩
    · intro x
      show x ∈ pol.pidsOf s' ↔ x ∈ st.added
      rw [hpids']
      exact hpids x
    · intro j
      show j ∈ pol.queueOf s' ↔
        j < (st.store.set i (execProc st.time (getP st.store i))).length ∧
        (getP (st.store.set i (execProc st.time (getP st.store i))) j).pid
          ∈ st.added
      rw [hqmem' j, hpid_pres j, List.length_set]
      exact hqueue j
    · cases pol with
      | fcfs => trivial
      | sjf => trivial
      | rr q =>
          intro c hcur
          have hfst : (RoundRobin.get_next_process st.store st.sched
              st.time).1 = some i := congrArg Prod.fst h
          have hsnd : (RoundRobin.get_next_process st.store st.sched
              st.time).2 = s' := congrArg Prod.snd h
          have hret := (rr_getNext_facts st.store st.sched st.time).2.2.2.2 c
            (by rw [hsnd]; exact hcur)
          rw [hfst] at hret
          have hci : c = i := by
            simpa using hret.symm
          subst hci
          refine ⟨(hqmem' c).mpr hmemq, ?_⟩
          show (getP (st.store.set c (execProc st.time (getP st.store c)))
            c).arrival_time ≤ st.time + 1
          rw [harr_pres c]
          have := hrdy.1
          omega

theorem invGen_init (pol : Policy) (procs : Store) :
    CoreInvGen procs pol (initCore pol.init procs) := by
  refine ⟨⟨rfl, fun k => rfl, fun k => rfl⟩, ?_, ?_, ?_⟩
  · intro x
    cases pol <;>
      simp [Policy.pidsOf, Policy.init, fcfsInit, sjfInit, rrInit, initCore]
  · intro i
    cases pol <;>
      simp [Policy.queueOf, Policy.init, fcfsInit, sjfInit, rrInit, initCore]
  · cases pol with
    | fcfs => trivial
    | sjf => trivial
    | rr q =>
        intro c hcur
        simp [Policy.init, rrInit, initCore] at hcur

theorem stAt_invGen (pol : Policy) (procs : Store)
    (hnd : (procs.map Process.pid).Nodup) (k : Nat) :
    CoreInvGen procs pol (stAt pol.sched pol.init procs k) := by
  apply coreLoop_inv pol.sched procs.length (maxTimeOf procs) k
    (CoreInvGen procs pol)
  · intro st hst h1 h2
    exact execTick_invGen pol procs hnd _
      (admitAll_invGen pol procs hnd st hst)
  · exact invGen_init pol procs

/-! ## Idle correctness (C6) -/

theorem tickPid_neg1_iff (pol : Policy) (procs : Store)
    (hwf : WfInput procs) (st : CoreState pol.State)
    (hinv : CoreInvGen procs pol st) :
    tickPid pol.sched st = -1 ↔ ¬ admittedReady st := by
  obtain ⟨hsb, hpids, hqueue, hex⟩ := hinv
  rcases h : pol.sched.getNext st.store st.sched st.time with ⟨r, s'⟩
  rcases r with _ | i
  · have ht : tickPid pol.sched st = -1 := by
      rw [tickPid, h]
    rw [ht]
    constructor
    · rintro - ⟨k, hk, hmem, hrdy⟩
      have hq : k ∈ pol.queueOf st.sched := (hqueue k).mpr ⟨hk, hmem⟩
      exact pol_getNext_none pol st.store st.sched st.time (by rw [h]) k hq
        hrdy
    · intro _
      rfl
  · have hsome : (pol.sched.getNext st.store st.sched st.time).1 = some i :=
      by rw [h]
    obtain ⟨hmemq, hrdy⟩ := pol_getNext_some pol st hex hsome
    have hklt : i < st.store.length := ((hqueue i).mp hmemq).1
    have hpne : (getP st.store i).pid ≠ -1 := by
      rw [hsb.2.1 i]
      have hip : i < procs.length := by
        have := hsb.1
        omega
      rw [getP_eq_getElem hip]
      exact (hwf _ (List.getElem_mem hip)).2.2.2
    have ht : tickPid pol.sched st = (getP st.store i).pid := by
      rw [tickPid, h]
    rw [ht]
    constructor
    · intro he
      exact absurd he hpne
    · intro hna
      exact absurd ⟨i, hklt, ((hqueue i).mp hmemq).2, hrdy⟩ hna

/-- C6: a core's timeline contains the idle sample `(t, −1)` at tick `t`
precisely when the run is still active at iteration `t` and, at the
post-admission state of that tick, no admitted process has both arrived
and positive remaining time — under each of the three policies. -/
theorem idle_iff_no_admitted_ready (pol : Policy) (procs : Store)
    (hwf : WfInput procs) (hnd : (procs.map Process.pid).Nodup) (t : Nat) :
    (t, -1) ∈ (runCore pol procs).timeline ↔
    (t < (runCore pol procs).timeline.length ∧
      ¬ admittedReady
        (admitAll pol.sched (stAt pol.sched pol.init procs t))) := by
  have hinvAd : ∀ k, CoreInvGen procs pol
      (admitAll pol.sched (stAt pol.sched pol.init procs k)) := fun k =>
    admitAll_invGen pol procs hnd _ (stAt_invGen pol procs hnd k)
  rw [runCore_eq_stAt]
  constructor
  · intro hmem
    obtain ⟨k, hk⟩ := List.mem_iff_getElem?.mp hmem
    have hklt : k <
        (stAt pol.sched pol.init procs (maxTimeOf procs)).timeline.length :=
      (List.getElem?_eq_some_iff.mp hk).1
    obtain ⟨hentry, hcond, htime⟩ :=
      stAt_entry pol.sched pol.init procs hklt
    rw [hk] at hentry
    have hpair := Option.some.injEq .. ▸ hentry
    have htk : t = k := congrArg Prod.fst (Option.some.inj hentry)
    have hneg : (-1 : Int) =
        tickPid pol.sched
          (admitAll pol.sched (stAt pol.sched pol.init procs k)) :=
      congrArg Prod.snd (Option.some.inj hentry)
    subst htk
    refine ⟨hklt, ?_⟩
    exact (tickPid_neg1_iff pol procs hwf _ (hinvAd t)).mp hneg.symm
  · rintro ⟨hlt, hna⟩
    obtain ⟨hentry, hcond, htime⟩ := stAt_entry pol.sched pol.init procs hlt
    have ht : tickPid pol.sched
        (admitAll pol.sched (stAt pol.sched pol.init procs t)) = -1 :=
      (tickPid_neg1_iff pol procs hwf _ (hinvAd t)).mpr hna
    rw [ht] at hentry
    obtain ⟨h1, h2⟩ := List.getElem?_eq_some_iff.mp hentry
    rw [← h2]
    exact List.getElem_mem h1

/-- C6 witness: a process arriving at time 1 leaves tick 0 idle, and the
characterization applies. -/
theorem idle_iff_no_admitted_ready_witness :
    (0, -1) ∈ (runCore .fcfs [mkProcess 0 1 1]).timeline ↔
    (0 < (runCore .fcfs [mkProcess 0 1 1]).timeline.length ∧
      ¬ admittedReady
        (admitAll (Policy.fcfs).sched
          (stAt (Policy.fcfs).sched (Policy.fcfs).init
            [mkProcess 0 1 1] 0))) :=
  idle_iff_no_admitted_ready .fcfs [mkProcess 0 1 1]
    (by unfold WfInput; decide) (by decide) 0

/-! ## The FCFS queue order (C5) -/

theorem indexOf_append_self {l : List Int} {a : Int} (h : a ∉ l) :
    List.indexOf a (l ++ [a]) = l.length := by
  induction l with
  | nil => simp
  | cons b l ih =>
      simp only [List.mem_cons, not_or] at h
      rw [List.cons_append,
        List.indexOf_cons_ne _ (fun he => h.1 he.symm), ih h.2]
      simp

theorem insertTail_mem (store : Store) (x : Nat) :
    ∀ (q : List Nat) (y : Nat), y ∈ insertTail store x q ↔ y ∈ q ∨ y = x := by
  intro q
  induction q with
  | nil => intro y; simp [insertTail]
  | cons a q ih =>
      intro y
      rw [insertTail]
      by_cases hlt : (getP store x).arrival_time <
          (getP store a).arrival_time
      · rw [if_pos hlt]
        simp only [List.mem_cons]
        tauto
      · rw [if_neg hlt]
        simp only [List.mem_cons, ih y]
        tauto

theorem orderedInsert_arrLe_front (store : Store) (a : Nat) (q : List Nat)
    (h : ∀ y ∈ q, arrLe store a y) :
    List.orderedInsert (arrLe store) a q = a :: q := by
  cases q with
  | nil => rfl
  | cons b q => rw [List.orderedInsert, if_pos (h b (by simp))]

theorem insertTail_front (store : Store) (x : Nat) (q : List Nat)
    (h : ∀ y ∈ q, (getP store x).arrival_time <
      (getP store y).arrival_time) :
    insertTail store x q = x :: q := by
  cases q with
  | nil => rfl
  | cons b q => rw [insertTail, if_pos (h b (by simp))]

theorem insertionSort_sorted_append (store : Store) (q : List Nat) (x : Nat)
    (hs : List.Sorted (arrLe store) q) :
    List.insertionSort (arrLe store) (q ++ [x]) = insertTail store x q := by
  induction q with
  | nil => rfl
  | cons a q ih =>
      rw [List.cons_append, List.insertionSort, ih hs.tail]
      have ha : ∀ y ∈ q, arrLe store a y := fun y hy =>
        List.rel_of_sorted_cons hs y hy
      rw [insertTail]
      by_cases hlt : (getP store x).arrival_time <
          (getP store a).arrival_time
      · rw [if_pos hlt]
        have hfront : insertTail store x q = x :: q := by
          refine insertTail_front store x q ?_
          intro y hy
          exact lt_of_lt_of_le hlt (ha y hy)
        rw [hfront, List.orderedInsert, if_neg (by
          simp only [arrLe]
          omega)]
        rw [orderedInsert_arrLe_front store a q ha]
      · rw [if_neg hlt]
        refine orderedInsert_arrLe_front store a _ ?_
        intro y hy
        rcases (insertTail_mem store x q y).mp hy with hy | rfl
        · exact ha y hy
        · simp only [arrLe]
          omega

theorem insertTail_append (store : Store) (x : Nat) (p r : List Nat)
    (h : ∀ y ∈ p, ¬ (getP store x).arrival_time <
      (getP store y).arrival_time) :
    insertTail store x (p ++ r) = p ++ insertTail store x r := by
  induction p with
  | nil => rfl
  | cons a p ih =>
      rw [List.cons_append, insertTail, if_neg (h a (by simp)),
        ih (fun y hy => h y (by simp [hy]))]
      rfl

theorem lexLt_arrLe {store : Store} {added : List Int} {i j : Nat}
    (h : lexLt store added i j) : arrLe store i j := by
  rcases h with h | ⟨h, -⟩
  · exact le_of_lt h
  · exact le_of_eq h

theorem pairwise_lexLt_sorted {store : Store} {added : List Int}
    {q : List Nat} (h : q.Pairwise (lexLt store added)) :
    List.Sorted (arrLe store) q :=
  h.imp lexLt_arrLe

theorem insertTail_pairwise (store : Store) (added' : List Int) (x : Nat)
    (q : List Nat) (hpw : q.Pairwise (lexLt store added'))
    (hidx : ∀ y ∈ q, List.indexOf (getP store y).pid added' <
      List.indexOf (getP store x).pid added') :
    (insertTail store x q).Pairwise (lexLt store added') := by
  induction q with
  | nil => simp [insertTail]
  | cons a q ih =>
      have hsorted := pairwise_lexLt_sorted hpw
      rw [insertTail]
      by_cases hlt : (getP store x).arrival_time <
          (getP store a).arrival_time
      · rw [if_pos hlt]
        refine List.Pairwise.cons ?_ hpw
        intro y hy
        rcases List.mem_cons.mp hy with rfl | hy
        · exact Or.inl hlt
        · refine Or.inl (lt_of_lt_of_le hlt ?_)
          exact List.rel_of_sorted_cons hsorted y hy
      · rw [if_neg hlt]
        refine List.Pairwise.cons ?_
          (ih hpw.tail (fun y hy => hidx y (by simp [hy])))
        intro y hy
        rcases (insertTail_mem store x q y).mp hy with hy | heq
        · exact (List.pairwise_cons.mp hpw).1 y hy
        · subst heq
          by_cases he : (getP store a).arrival_time =
              (getP store y).arrival_time
          · exact Or.inr ⟨he, hidx a (by simp)⟩
          · exact Or.inl (by omega)

theorem find?_split {p : Nat → Bool} :
    ∀ {l : List Nat} {x : Nat}, l.find? p = some x →
      ∃ l₁ l₂, l = l₁ ++ x :: l₂ ∧ ∀ y ∈ l₁, ¬ p y := by
  intro l
  induction l with
  | nil => intro x h; simp at h
  | cons a l ih =>
      intro x h
      by_cases pa : p a
      · rw [List.find?_cons_of_pos _ pa] at h
        obtain rfl : a = x := by simpa using h
        exact ⟨[], l, rfl, by simp⟩
      · rw [List.find?_cons_of_neg _ pa] at h
        obtain ⟨l₁, l₂, rfl, hl₁⟩ := ih h
        refine ⟨a :: l₁, l₂, rfl, ?_⟩
        intro y hy
        rcases List.mem_cons.mp hy with rfl | hy
        · exact pa
        · exact hl₁ y hy

theorem find?_first {p : Nat → Bool} {l₁ l₂ : List Nat} {x : Nat}
    (h₁ : ∀ y ∈ l₁, ¬ p y) (hx : p x) :
    (l₁ ++ x :: l₂).find? p = some x := by
  rw [List.find?_append, List.find?_eq_none.mpr h₁,
    List.find?_cons_of_pos _ hx]
  rfl

theorem fcfsInv_admitOne (procs : Store) (st : CoreState FCFS) {i : Nat}
    (hi : i < st.store.length)
    (hgen : CoreInvGen procs .fcfs st) (hf : FcfsInv procs st) :
    FcfsInv procs (admitOne fcfsScheduler st i) := by
  obtain ⟨hpw, harr, hadm, hcmp⟩ := hf
  by_cases hcond : (getP st.store i).arrival_time ≤ st.time ∧
      (getP st.store i).pid ∉ st.added ∧
      (getP st.store i).completion_time = none
  swap
  · rw [admitOne, if_neg hcond]
    exact ⟨hpw, harr, hadm, hcmp⟩
  · have hnp : (getP st.store i).pid ∉ st.sched.processed_pids := fun hm =>
      hcond.2.1 ((hgen.2.1 _).mp hm)
    have hmemadd : ∀ y ∈ st.sched.queue, (getP st.store y).pid ∈ st.added :=
      fun y hy => ((hgen.2.2.1 y).mp hy).2
    rw [admitOne, if_pos hcond]
    have hqeq : (fcfsScheduler.addProcess st.store st.sched i).queue =
        insertTail st.store i st.sched.queue := by
      show (FCFS.add_process st.store st.sched i).queue = _
      rw [FCFS.add_process, if_neg hnp]
      exact insertionSort_sorted_append st.store st.sched.queue i
        (pairwise_lexLt_sorted hpw)
    refine ⟨?_, ?_, ?_, ?_⟩
    · show ((fcfsScheduler.addProcess st.store st.sched i).queue).Pairwise
        (lexLt st.store (st.added ++ [(getP st.store i).pid]))
      rw [hqeq]
      refine insertTail_pairwise st.store _ i st.sched.queue ?_ ?_
      · refine hpw.imp_of_mem ?_
        intro a b ha hb hab
        rcases hab with h | ⟨h1, h2⟩
        · exact Or.inl h
        · refine Or.inr ⟨h1, ?_⟩
          rw [List.indexOf_append_of_mem (hmemadd a ha),
            List.indexOf_append_of_mem (hmemadd b hb)]
          exact h2
      · intro y hy
        rw [List.indexOf_append_of_mem (hmemadd y hy),
          indexOf_append_self hcond.2.1]
        exact List.indexOf_lt_length.mpr (hmemadd y hy)
    · intro y hy
      show (getP st.store y).arrival_time ≤ st.time
      rw [hqeq] at hy
      rcases (insertTail_mem st.store i st.sched.queue y).mp hy with hy | rfl
      · exact harr y hy
      · exact hcond.1
    · intro k hk hlt
      exact List.mem_append_left _ (hadm k hk hlt)
    · intro k hk hc
      exact List.mem_append_left _ (hcmp k hk hc)

theorem admitOne_added_mono (S : Scheduler σ) (st : CoreState σ) (i : Nat)
    {x : Int} (h : x ∈ st.added) : x ∈ (admitOne S st i).added := by
  rw [admitOne]
  split
  · exact List.mem_append_left _ h
  · exact h

theorem foldl_admitOne_added_mono (S : Scheduler σ) :
    ∀ (l : List Nat) (st : CoreState σ) {x : Int}, x ∈ st.added →
      x ∈ (l.foldl (admitOne S) st).added := by
  intro l
  induction l with
  | nil => intro st x h; exact h
  | cons a l ih =>
      intro st x h
      exact ih _ (admitOne_added_mono S st a h)

theorem foldl_admitOne_admits (S : Scheduler σ) :
    ∀ (l : List Nat) (st : CoreState σ),
      (∀ k, k < st.store.length →
        (getP st.store k).completion_time ≠ none →
        (getP st.store k).pid ∈ st.added) →
      ∀ k ∈ l, k < st.store.length →
        (getP st.store k).arrival_time ≤ st.time →
        (getP st.store k).pid ∈ (l.foldl (admitOne S) st).added := by
  intro l
  induction l with
  | nil => intro st hcmp k hk; simp at hk
  | cons a l ih =>
      intro st hcmp k hk hklt harr
      rw [List.foldl_cons]
      have hfields := admitOne_fields S st a
      rcases List.mem_cons.mp hk with rfl | hk
      · have hmem : (getP st.store k).pid ∈ (admitOne S st k).added := by
          by_cases hin : (getP st.store k).pid ∈ st.added
          · exact admitOne_added_mono S st k hin
          · by_cases hc : (getP st.store k).completion_time = none
            · rw [admitOne, if_pos ⟨harr, hin, hc⟩]
              simp
            · exact absurd (hcmp k hklt hc) hin
        exact foldl_admitOne_added_mono S l _ hmem
      · have h2 : (getP (admitOne S st a).store k).pid ∈
            (l.foldl (admitOne S) (admitOne S st a)).added := by
          refine ih (admitOne S st a) ?_ k hk ?_ ?_
          · intro j hj hjc
            rw [hfields.1] at hj hjc ⊢
            exact admitOne_added_mono S st a (hcmp j hj hjc)
          · rw [hfields.1]
            exact hklt
          · rw [hfields.1, hfields.2.1]
            exact harr
        rwa [hfields.1] at h2

/-- After the admission sweep, every process arrived by the current time
is admitted. -/
theorem admitAll_admits (S : Scheduler σ) (st : CoreState σ)
    (hcmp : ∀ k, k < st.store.length →
      (getP st.store k).completion_time ≠ none →
      (getP st.store k).pid ∈ st.added) :
    ∀ k, k < st.store.length → (getP st.store k).arrival_time ≤ st.time →
      (getP st.store k).pid ∈ (admitAll S st).added := by
  intro k hk harr
  exact foldl_admitOne_admits S _ st hcmp k (List.mem_range.mpr hk) hk harr

theorem fcfsInv_admitAll (procs : Store)
    (hnd : (procs.map Process.pid).Nodup) :
    ∀ (l : List Nat) (st : CoreState FCFS),
      (∀ j ∈ l, j < st.store.length) →
      CoreInvGen procs .fcfs st → FcfsInv procs st →
      FcfsInv procs (l.foldl (admitOne fcfsScheduler) st) := by
  intro l
  induction l with
  | nil => intro st _ _ hf; exact hf
  | cons a l ih =>
      intro st hl hgen hf
      rw [List.foldl_cons]
      have ha : a < st.store.length := hl a (by simp)
      refine ih _ ?_ ?_ (fcfsInv_admitOne procs st ha hgen hf)
      · intro j hj
        rw [(admitOne_fields fcfsScheduler st a).1]
        exact hl j (by simp [hj])
      · exact admitOne_invGen Policy.fcfs procs hnd st ha hgen

theorem set_execProc_pid (store : Store) (t : Nat) {i : Nat}
    (hilt : i < store.length) (k : Nat) :
    (getP (store.set i (execProc t (getP store i))) k).pid =
      (getP store k).pid := by
  by_cases hik : i = k
  · subst hik
    rw [getP_set_same hilt, (execProc_fields t _).1]
  · rw [getP_set_ne hik]

theorem set_execProc_arr (store : Store) (t : Nat) {i : Nat}
    (hilt : i < store.length) (k : Nat) :
    (getP (store.set i (execProc t (getP store i))) k).arrival_time =
      (getP store k).arrival_time := by
  by_cases hik : i = k
  · subst hik
    rw [getP_set_same hilt, (execProc_fields t _).2.1]
  · rw [getP_set_ne hik]

theorem lexLt_set_iff (store : Store) (t : Nat) {i : Nat}
    (hilt : i < store.length) (added : List Int) (a b : Nat) :
    lexLt (store.set i (execProc t (getP store i))) added a b ↔
      lexLt store added a b := by
  unfold lexLt
  rw [set_execProc_arr store t hilt a, set_execProc_arr store t hilt b,
    set_execProc_pid store t hilt a, set_execProc_pid store t hilt b]

theorem fcfs_getNext_snd (store : Store) (s : FCFS) (t : Nat) :
    (FCFS.get_next_process store s t).2 = s := rfl

theorem fcfs_coreStep_inv (procs : Store)
    (hnd : (procs.map Process.pid).Nodup) (st : CoreState FCFS)
    (hgen : CoreInvGen procs .fcfs st) (hf : FcfsInv procs st) :
    FcfsInv procs (coreStep fcfsScheduler st) := by
  have hgenc : CoreInvGen procs Policy.fcfs (admitAll fcfsScheduler st) :=
    admitAll_invGen Policy.fcfs procs hnd st hgen
  have hfc : FcfsInv procs (admitAll fcfsScheduler st) :=
    fcfsInv_admitAll procs hnd _ st (fun j hj => List.mem_range.mp hj)
      hgen hf
  have hadmits := admitAll_admits fcfsScheduler st (by
    intro k hk hc
    refine hf.2.2.2 k ?_ hc
    rw [← hgen.1.1]
    exact hk)
  have hAfields := admitAll_fields fcfsScheduler st
  obtain ⟨hpwc, harrc, hadmc, hcmpc⟩ := hfc
  rw [coreStep]
  rcases h : fcfsScheduler.getNext (admitAll fcfsScheduler st).store
      (admitAll fcfsScheduler st).sched
      (admitAll fcfsScheduler st).time with ⟨r, s'⟩
  have hs' : s' = (admitAll fcfsScheduler st).sched := by
    have := congrArg Prod.snd h
    exact this.symm
  rcases r with _ | i
  · simp only [execTick, h]
    refine ⟨?_, ?_, ?_, ?_⟩
    · rw [hs']
      exact hpwc
    · intro y hy
      rw [hs'] at hy
      exact le_trans (harrc y hy)
        (Nat.le_succ ((admitAll fcfsScheduler st).time))
    · intro k hk hlt
      show (getP (admitAll fcfsScheduler st).store k).pid ∈
        (admitAll fcfsScheduler st).added
      have hlt2 : (getP (admitAll fcfsScheduler st).store k).arrival_time <
          (admitAll fcfsScheduler st).time + 1 := hlt
      rw [hAfields.1, hAfields.2.1] at hlt2
      rw [hAfields.1]
      refine hadmits k ?_ (by omega)
      rw [hgen.1.1]
      exact hk
    · exact hcmpc
  · have hsel : (admitAll fcfsScheduler st).sched.queue.find?
        (readyB (admitAll fcfsScheduler st).store
          (admitAll fcfsScheduler st).time) = some i := congrArg Prod.fst h
    have hird : ready (admitAll fcfsScheduler st).store
        (admitAll fcfsScheduler st).time i := by
      simpa [readyB] using List.find?_some hsel
    have himem : i ∈ (admitAll fcfsScheduler st).sched.queue :=
      List.mem_of_find?_eq_some hsel
    have hilt : i < (admitAll fcfsScheduler st).store.length :=
      getP_pos_lt hird.2
    simp only [execTick, h]
    refine ⟨?_, ?_, ?_, ?_⟩
    · rw [hs']
      refine hpwc.imp_of_mem ?_
      intro a b ha hb hab
      exact (lexLt_set_iff _ _ hilt _ a b).mpr hab
    · intro y hy
      rw [hs'] at hy
      show (getP ((admitAll fcfsScheduler st).store.set i
        (execProc (admitAll fcfsScheduler st).time
          (getP (admitAll fcfsScheduler st).store i))) y).arrival_time ≤ _
      rw [set_execProc_arr _ _ hilt y]
      exact le_trans (harrc y hy)
        (Nat.le_succ ((admitAll fcfsScheduler st).time))
    · intro k hk hlt
      show (getP ((admitAll fcfsScheduler st).store.set i
        (execProc (admitAll fcfsScheduler st).time
          (getP (admitAll fcfsScheduler st).store i))) k).pid ∈
        (admitAll fcfsScheduler st).added
      rw [set_execProc_pid _ _ hilt k]
      have hlt2 : (getP ((admitAll fcfsScheduler st).store.set i
          (execProc (admitAll fcfsScheduler st).time
            (getP (admitAll fcfsScheduler st).store i))) k).arrival_time <
          (admitAll fcfsScheduler st).time + 1 := hlt
      rw [set_execProc_arr _ _ hilt k, hAfields.1, hAfields.2.1] at hlt2
      rw [hAfields.1]
      refine hadmits k ?_ (by omega)
      rw [hgen.1.1]
      exact hk
    · intro k hk hc
      show (getP _ k).pid ∈ (admitAll fcfsScheduler st).added
      rw [set_execProc_pid _ _ hilt k]
      by_cases hik : i = k
      · subst hik
        exact ((hgenc.2.2.1 i).mp himem).2
      · rw [getP_set_ne hik] at hc
        exact hcmpc k hk hc

theorem fcfs_fold_shape (procs : Store)
    (hnd : (procs.map Process.pid).Nodup) :
    ∀ (l : List Nat) (st : CoreState FCFS),
      (∀ j ∈ l, j < st.store.length) →
      CoreInvGen procs .fcfs st → FcfsInv procs st →
      ∀ (p r : List Nat), st.sched.queue = p ++ r →
      (∀ y ∈ p, (getP st.store y).arrival_time < st.time) →
      ∃ r2, (l.foldl (admitOne fcfsScheduler) st).sched.queue = p ++ r2 := by
  intro l
  induction l with
  | nil =>
      intro st _ _ _ p r hq _
      exact ⟨r, hq⟩
  | cons a l ih =>
      intro st hl hgen hf p r hq hp
      rw [List.foldl_cons]
      have ha : a < st.store.length := hl a (by simp)
      by_cases hcond : (getP st.store a).arrival_time ≤ st.time ∧
          (getP st.store a).pid ∉ st.added ∧
          (getP st.store a).completion_time = none
      swap
      · have hid : admitOne fcfsScheduler st a = st := by
          rw [admitOne, if_neg hcond]
        rw [hid]
        exact ih st (fun j hj => hl j (by simp [hj])) hgen hf p r hq hp
      · have hnp : (getP st.store a).pid ∉ st.sched.processed_pids :=
          fun hm => hcond.2.1 ((hgen.2.1 _).mp hm)
        have harra : (getP st.store a).arrival_time = st.time := by
          by_contra hne
          have hlt : (getP st.store a).arrival_time < st.time := by
            have := hcond.1
            omega
          exact hcond.2.1 (hf.2.2.1 a (by rw [← hgen.1.1]; exact ha) hlt)
        have hstep : admitOne fcfsScheduler st a =
            { st with sched := fcfsScheduler.addProcess st.store st.sched a,
                      added := st.added ++ [(getP st.store a).pid] } := by
          rw [admitOne, if_pos hcond]
        have hqeq : (fcfsScheduler.addProcess st.store st.sched a).queue =
            insertTail st.store a st.sched.queue := by
          show (FCFS.add_process st.store st.sched a).queue = _
          rw [FCFS.add_process, if_neg hnp]
          exact insertionSort_sorted_append st.store st.sched.queue a
            (pairwise_lexLt_sorted hf.1)
        have hshape : (admitOne fcfsScheduler st a).sched.queue =
            p ++ insertTail st.store a r := by
          rw [hstep]
          show (fcfsScheduler.addProcess st.store st.sched a).queue = _
          rw [hqeq, hq]
          refine insertTail_append st.store a p r ?_
          intro y hy
          have := hp y hy
          omega
        refine ih (admitOne fcfsScheduler st a) ?_ ?_ ?_ p
          (insertTail st.store a r) hshape ?_
        · intro j hj
          rw [(admitOne_fields fcfsScheduler st a).1]
          exact hl j (by simp [hj])
        · exact admitOne_invGen Policy.fcfs procs hnd st ha hgen
        · exact fcfsInv_admitOne procs st ha hgen hf
        · intro y hy
          rw [(admitOne_fields fcfsScheduler st a).1,
            (admitOne_fields fcfsScheduler st a).2.1]
          exact hp y hy

theorem fcfsInv_init (procs : Store) (hwf : WfInput procs) :
    FcfsInv procs (initCore fcfsInit procs) := by
  refine ⟨?_, ?_, ?_, ?_⟩
  · simp [initCore, fcfsInit]
  · intro y hy
    simp [initCore, fcfsInit] at hy
  · intro k hk hlt
    have : (initCore fcfsInit procs).time = 0 := rfl
    omega
  · intro k hk hc
    have hmem : procs[k] ∈ procs := List.getElem_mem hk
    have := (hwf _ hmem).2.1
    rw [show (initCore fcfsInit procs).store = procs from rfl,
      getP_eq_getElem hk] at hc
    exact absurd this hc

theorem fcfs_stAt_inv (procs : Store) (hwf : WfInput procs)
    (hnd : (procs.map Process.pid).Nodup) (k : Nat) :
    CoreInvGen procs .fcfs
      (stAt Policy.fcfs.sched Policy.fcfs.init procs k) ∧
    FcfsInv procs (stAt Policy.fcfs.sched Policy.fcfs.init procs k) := by
  apply coreLoop_inv Policy.fcfs.sched procs.length (maxTimeOf procs) k
    (fun st => CoreInvGen procs .fcfs st ∧ FcfsInv procs st)
  · intro st hst h1 h2
    exact ⟨execTick_invGen .fcfs procs hnd _
        (admitAll_invGen .fcfs procs hnd st hst.1),
      fcfs_coreStep_inv procs hnd st hst.1 hst.2⟩
  · exact ⟨invGen_init .fcfs procs, fcfsInv_init procs hwf⟩

/-- Per-call FCFS selection: the returned process is ready and admitted,
and among all admitted ready processes it has minimal arrival time, with
arrival ties broken by admission order. -/
theorem fcfs_call_min (procs : Store) (st : CoreState FCFS)
    (hgen : CoreInvGen procs .fcfs st) (hf : FcfsInv procs st) {i : Nat}
    (hsel : st.sched.queue.find? (readyB st.store st.time) = some i) :
    ready st.store st.time i ∧ (getP st.store i).pid ∈ st.added ∧
    ∀ j, j < st.store.length → (getP st.store j).pid ∈ st.added →
      ready st.store st.time j →
      (getP st.store i).arrival_time < (getP st.store j).arrival_time ∨
      ((getP st.store i).arrival_time = (getP st.store j).arrival_time ∧
        List.indexOf (getP st.store i).pid st.added ≤
          List.indexOf (getP st.store j).pid st.added) := by
  have hird : ready st.store st.time i := by
    simpa [readyB] using List.find?_some hsel
  have himem : i ∈ st.sched.queue := List.mem_of_find?_eq_some hsel
  refine ⟨hird, ((hgen.2.2.1 i).mp himem).2, ?_⟩
  intro j hjlt hjadd hjrd
  have hjq : j ∈ st.sched.queue := (hgen.2.2.1 j).mpr ⟨hjlt, hjadd⟩
  obtain ⟨q₁, q₂, hqeq, hq₁⟩ := find?_split hsel
  rw [hqeq] at hjq
  rcases List.mem_append.mp hjq with hj1 | hj2
  · exfalso
    have hnr := hq₁ j hj1
    simp [readyB] at hnr
    exact hnr hjrd
  · rcases List.mem_cons.mp hj2 with rfl | hj2
    · exact Or.inr ⟨rfl, le_refl _⟩
    · have hpw := hf.1
      rw [hqeq] at hpw
      have hpw2 := (List.pairwise_append.mp hpw).2.1
      have hlex : lexLt st.store st.added i j :=
        (List.pairwise_cons.mp hpw2).1 j hj2
      rcases hlex with h | ⟨h1, h2⟩
      · exact Or.inl h
      · exact Or.inr ⟨h1, le_of_lt h2⟩

/-- The FCFS non-preemption step: if the tick at the current state selects
process `i` and `i` still has work after executing, the next tick's call
selects `i` again. -/
theorem fcfs_step_repeat (procs : Store)
    (hnd : (procs.map Process.pid).Nodup) (st : CoreState FCFS)
    (hgen : CoreInvGen procs .fcfs st) (hf : FcfsInv procs st) {i : Nat}
    (hsel : (admitAll fcfsScheduler st).sched.queue.find?
      (readyB (admitAll fcfsScheduler st).store
        (admitAll fcfsScheduler st).time) = some i)
    (hrem : 0 < (getP (coreStep fcfsScheduler st).store i).remaining_time) :
    (admitAll fcfsScheduler (coreStep fcfsScheduler st)).sched.queue.find?
      (readyB (admitAll fcfsScheduler (coreStep fcfsScheduler st)).store
        (admitAll fcfsScheduler (coreStep fcfsScheduler st)).time) =
      some i := by
  have hAf := admitAll_fields fcfsScheduler st
  have hgenc : CoreInvGen procs Policy.fcfs (admitAll fcfsScheduler st) :=
    admitAll_invGen Policy.fcfs procs hnd st hgen
  have hfc : FcfsInv procs (admitAll fcfsScheduler st) :=
    fcfsInv_admitAll procs hnd _ st (fun j hj => List.mem_range.mp hj)
      hgen hf
  have hird : ready (admitAll fcfsScheduler st).store
      (admitAll fcfsScheduler st).time i := by
    simpa [readyB] using List.find?_some hsel
  have hilt : i < (admitAll fcfsScheduler st).store.length :=
    getP_pos_lt hird.2
  have hgn : fcfsScheduler.getNext (admitAll fcfsScheduler st).store
      (admitAll fcfsScheduler st).sched (admitAll fcfsScheduler st).time =
      (some i, (admitAll fcfsScheduler st).sched) := by
    show ((admitAll fcfsScheduler st).sched.queue.find?
      (readyB (admitAll fcfsScheduler st).store
        (admitAll fcfsScheduler st).time),
      (admitAll fcfsScheduler st).sched) = _
    rw [hsel]
  have hst' : coreStep fcfsScheduler st =
      { store := (admitAll fcfsScheduler st).store.set i
          (execProc (admitAll fcfsScheduler st).time
            (getP (admitAll fcfsScheduler st).store i))
        sched := (admitAll fcfsScheduler st).sched
        added := (admitAll fcfsScheduler st).added
        timeline := (admitAll fcfsScheduler st).timeline ++
          [((admitAll fcfsScheduler st).time,
            (getP (admitAll fcfsScheduler st).store i).pid)]
        time := (admitAll fcfsScheduler st).time + 1
        completed := if (getP (admitAll fcfsScheduler st).store
            i).remaining_time - 1 = 0
          then (admitAll fcfsScheduler st).completed + 1
          else (admitAll fcfsScheduler st).completed } := by
    rw [coreStep]
    simp only [execTick, hgn]
  obtain ⟨q₁, q₂, hqeq, hq₁⟩ := find?_split hsel
  have hgen' : CoreInvGen procs .fcfs (coreStep fcfsScheduler st) :=
    execTick_invGen .fcfs procs hnd _ hgenc
  have hf' : FcfsInv procs (coreStep fcfsScheduler st) :=
    fcfs_coreStep_inv procs hnd st hgen hf
  have hq' : (coreStep fcfsScheduler st).sched.queue = (q₁ ++ [i]) ++ q₂ := by
    rw [hst']
    show (admitAll fcfsScheduler st).sched.queue = _
    rw [hqeq]
    simp
  have hp : ∀ y ∈ q₁ ++ [i],
      (getP (coreStep fcfsScheduler st).store y).arrival_time <
        (coreStep fcfsScheduler st).time := by
    intro y hy
    have hyq : y ∈ (admitAll fcfsScheduler st).sched.queue := by
      rw [hqeq]
      rcases List.mem_append.mp hy with hy | hy
      · exact List.mem_append_left _ hy
      · simp only [List.mem_singleton] at hy
        subst hy
        exact List.mem_append_right _ (by simp)
    have harr := hfc.2.1 y hyq
    rw [hst']
    show (getP ((admitAll fcfsScheduler st).store.set i
      (execProc (admitAll fcfsScheduler st).time
        (getP (admitAll fcfsScheduler st).store i))) y).arrival_time <
      (admitAll fcfsScheduler st).time + 1
    rw [set_execProc_arr _ _ hilt y]
    omega
  obtain ⟨r2, hshape⟩ := fcfs_fold_shape procs hnd _
    (coreStep fcfsScheduler st) (fun j hj => List.mem_range.mp hj)
    hgen' hf' (q₁ ++ [i]) q₂ hq' hp
  have hAf' := admitAll_fields fcfsScheduler (coreStep fcfsScheduler st)
  have hshape' : (admitAll fcfsScheduler
      (coreStep fcfsScheduler st)).sched.queue = q₁ ++ i :: r2 := by
    rw [show (admitAll fcfsScheduler (coreStep fcfsScheduler st)) =
      ((List.range (coreStep fcfsScheduler st).store.length).foldl
        (admitOne fcfsScheduler) (coreStep fcfsScheduler st)) from rfl]
    rw [hshape]
    simp
  rw [hshape', hAf'.1, hAf'.2.1]
  refine find?_first ?_ ?_
  · intro y hy
    have hnr : ¬ ready (admitAll fcfsScheduler st).store
        (admitAll fcfsScheduler st).time y := by
      have := hq₁ y hy
      simpa [readyB] using this
    have hyq : y ∈ (admitAll fcfsScheduler st).sched.queue := by
      rw [hqeq]
      exact List.mem_append_left _ hy
    have harr := hfc.2.1 y hyq
    have hrem0 : (getP (admitAll fcfsScheduler st).store y).remaining_time
        = 0 := by
      by_contra h0
      exact hnr ⟨harr, Nat.pos_of_ne_zero h0⟩
    have hyne : i ≠ y := by
      intro he
      rw [← he] at hrem0
      have := hird.2
      omega
    simp only [readyB, decide_eq_true_eq]
    intro hrdy
    have : (getP (coreStep fcfsScheduler st).store y).remaining_time = 0 := by
      rw [hst']
      show (getP ((admitAll fcfsScheduler st).store.set i
        (execProc (admitAll fcfsScheduler st).time
          (getP (admitAll fcfsScheduler st).store i))) y).remaining_time = 0
      rw [getP_set_ne hyne]
      exact hrem0
    have := hrdy.2
    omega
  · simp only [readyB, decide_eq_true_eq]
    constructor
    · have : (getP (coreStep fcfsScheduler st).store i).arrival_time =
          (getP (admitAll fcfsScheduler st).store i).arrival_time := by
        rw [hst']
        exact set_execProc_arr _ _ hilt i
      rw [this]
      have := hird.1
      have ht : (coreStep fcfsScheduler st).time =
          (admitAll fcfsScheduler st).time + 1 := by
        rw [hst']
      omega
    · exact hrem

/-- C5: FCFS selection and non-preemption.  At every call of a core-driven
run, the returned process is ready and admitted and has the smallest
arrival time among admitted ready processes (ties broken by admission
order); and once a process produces a timeline entry, the next entry (when
the run continues) is the same process unless its remaining time has
reached zero. -/
theorem fcfs_selection_nonpreemption (procs : Store) (hwf : WfInput procs)
    (hnd : (procs.map Process.pid).Nodup) :
    (∀ t i, (Policy.fcfs.sched.getNext (fcfsCallState procs t).store
        (fcfsCallState procs t).sched (fcfsCallState procs t).time).1 =
        some i →
      ready (fcfsCallState procs t).store (fcfsCallState procs t).time i ∧
      (getP (fcfsCallState procs t).store i).pid ∈
        (fcfsCallState procs t).added ∧
      ∀ j, j < (fcfsCallState procs t).store.length →
        (getP (fcfsCallState procs t).store j).pid ∈
          (fcfsCallState procs t).added →
        ready (fcfsCallState procs t).store (fcfsCallState procs t).time j →
        (getP (fcfsCallState procs t).store i).arrival_time <
          (getP (fcfsCallState procs t).store j).arrival_time ∨
        ((getP (fcfsCallState procs t).store i).arrival_time =
          (getP (fcfsCallState procs t).store j).arrival_time ∧
          List.indexOf (getP (fcfsCallState procs t).store i).pid
            (fcfsCallState procs t).added ≤
          List.indexOf (getP (fcfsCallState procs t).store j).pid
            (fcfsCallState procs t).added)) ∧
    (∀ k x, (runCore .fcfs procs).timeline[k]? = some (k, x) → x ≠ -1 →
      k + 1 < (runCore .fcfs procs).timeline.length →
      (∃ j, j < procs.length ∧
        (getP (stAt Policy.fcfs.sched Policy.fcfs.init procs
          (k + 1)).store j).pid = x ∧
        (getP (stAt Policy.fcfs.sched Policy.fcfs.init procs
          (k + 1)).store j).remaining_time = 0) ∨
      (runCore .fcfs procs).timeline[k + 1]? = some (k + 1, x)) := by
  constructor
  · intro t i hsel
    have hinv := fcfs_stAt_inv procs hwf hnd t
    have hgenc : CoreInvGen procs .fcfs (fcfsCallState procs t) :=
      admitAll_invGen .fcfs procs hnd _ hinv.1
    have hfc : FcfsInv procs (fcfsCallState procs t) :=
      fcfsInv_admitAll procs hnd _ _ (fun j hj => List.mem_range.mp hj)
        hinv.1 hinv.2
    exact fcfs_call_min procs _ hgenc hfc hsel
  · intro k x hk hxne hk1
    have hlen : k <
        (stAt Policy.fcfs.sched Policy.fcfs.init procs
          (maxTimeOf procs)).timeline.length :=
      (List.getElem?_eq_some_iff.mp hk).1
    have hk' : (stAt Policy.fcfs.sched Policy.fcfs.init procs
        (maxTimeOf procs)).timeline[k]? = some (k, x) := hk
    obtain ⟨hentry, hcond, htime⟩ :=
      stAt_entry Policy.fcfs.sched Policy.fcfs.init procs hlen
    rw [hk'] at hentry
    have hx : x = tickPid Policy.fcfs.sched (fcfsCallState procs k) :=
      congrArg Prod.snd (Option.some.inj hentry)
    rcases hgn : Policy.fcfs.sched.getNext (fcfsCallState procs k).store
        (fcfsCallState procs k).sched (fcfsCallState procs k).time
      with ⟨r, s'⟩
    rcases r with _ | i
    · exfalso
      apply hxne
      rw [hx, tickPid, hgn]
    · have hxpid : x = (getP (fcfsCallState procs k).store i).pid := by
        rw [hx, tickPid, hgn]
      have hinvk := fcfs_stAt_inv procs hwf hnd k
      have hgenc : CoreInvGen procs .fcfs (fcfsCallState procs k) :=
        admitAll_invGen .fcfs procs hnd _ hinvk.1
      have hsel : (fcfsCallState procs k).sched.queue.find?
          (readyB (fcfsCallState procs k).store
            (fcfsCallState procs k).time) = some i :=
        congrArg Prod.fst hgn
      have hird : ready (fcfsCallState procs k).store
          (fcfsCallState procs k).time i := by
        simpa [readyB] using List.find?_some hsel
      have hilt : i < (fcfsCallState procs k).store.length :=
        getP_pos_lt hird.2
      have hiltp : i < procs.length := by
        have := hgenc.1.1
        omega
      have hstep : stAt Policy.fcfs.sched Policy.fcfs.init procs (k + 1) =
          coreStep Policy.fcfs.sched
            (stAt Policy.fcfs.sched Policy.fcfs.init procs k) := by
        rw [stAt_succ, if_pos hcond]
      by_cases h0 : (getP (stAt Policy.fcfs.sched Policy.fcfs.init procs
          (k + 1)).store i).remaining_time = 0
      · left
        refine ⟨i, hiltp, ?_, h0⟩
        have hinv1 := fcfs_stAt_inv procs hwf hnd (k + 1)
        rw [hinv1.1.1.2.1 i, hxpid, hgenc.1.2.1 i]
      · right
        have hrem : 0 < (getP (coreStep fcfsScheduler
            (stAt Policy.fcfs.sched Policy.fcfs.init procs
              k)).store i).remaining_time := by
          have h1 : (coreStep fcfsScheduler
              (stAt Policy.fcfs.sched Policy.fcfs.init procs k)) =
              stAt Policy.fcfs.sched Policy.fcfs.init procs (k + 1) :=
            hstep.symm
          rw [h1]
          omega
        have hrep := fcfs_step_repeat procs hnd
          (stAt Policy.fcfs.sched Policy.fcfs.init procs k)
          hinvk.1 hinvk.2 hsel hrem
        have hk1' : k + 1 <
            (stAt Policy.fcfs.sched Policy.fcfs.init procs
              (maxTimeOf procs)).timeline.length := hk1
        obtain ⟨hentry1, hcond1, htime1⟩ :=
          stAt_entry Policy.fcfs.sched Policy.fcfs.init procs hk1'
        have hcs : fcfsCallState procs (k + 1) =
            admitAll fcfsScheduler (coreStep fcfsScheduler
              (stAt Policy.fcfs.sched Policy.fcfs.init procs k)) := by
          rw [fcfsCallState, hstep]; rfl
        have htp : tickPid Policy.fcfs.sched (fcfsCallState procs (k + 1)) =
            x := by
          have hrep' : (fcfsCallState procs (k + 1)).sched.queue.find?
              (readyB (fcfsCallState procs (k + 1)).store
                (fcfsCallState procs (k + 1)).time) = some i := by
            rw [hcs]
            exact hrep
          have hgn1 : Policy.fcfs.sched.getNext
              (fcfsCallState procs (k + 1)).store
              (fcfsCallState procs (k + 1)).sched
              (fcfsCallState procs (k + 1)).time =
              (some i, (fcfsCallState procs (k + 1)).sched) := by
            show ((fcfsCallState procs (k + 1)).sched.queue.find?
              (readyB (fcfsCallState procs (k + 1)).store
                (fcfsCallState procs (k + 1)).time),
              (fcfsCallState procs (k + 1)).sched) = _
            rw [hrep']
          rw [tickPid, hgn1]
          show (getP (fcfsCallState procs (k + 1)).store i).pid = x
          have hinv1 := fcfs_stAt_inv procs hwf hnd (k + 1)
          have hgenc1 : CoreInvGen procs .fcfs
              (fcfsCallState procs (k + 1)) :=
            admitAll_invGen .fcfs procs hnd _ hinv1.1
          rw [hgenc1.1.2.1 i, hxpid, hgenc.1.2.1 i]
        show (stAt Policy.fcfs.sched Policy.fcfs.init procs
          (maxTimeOf procs)).timeline[k + 1]? = some (k + 1, x)
        rw [hentry1]
        rw [show admitAll Policy.fcfs.sched (stAt Policy.fcfs.sched
          Policy.fcfs.init procs (k + 1)) = fcfsCallState procs (k + 1)
          from rfl, htp]
  
/-- C5 witness: in the FCFS scenario run, P0 produces the entry at tick 0
and, still having work, also the entry at tick 1. -/
theorem fcfs_selection_nonpreemption_witness :
    (∃ j, j < ([mkProcess 0 0 3, mkProcess 1 1 2] : Store).length ∧
      (getP (stAt Policy.fcfs.sched Policy.fcfs.init
        [mkProcess 0 0 3, mkProcess 1 1 2] (0 + 1)).store j).pid = 0 ∧
      (getP (stAt Policy.fcfs.sched Policy.fcfs.init
        [mkProcess 0 0 3, mkProcess 1 1 2]
          (0 + 1)).store j).remaining_time = 0) ∨
    (runCore .fcfs [mkProcess 0 0 3, mkProcess 1 1 2]).timeline[0 + 1]? =
      some (0 + 1, 0) :=
  (fcfs_selection_nonpreemption [mkProcess 0 0 3, mkProcess 1 1 2]
    (by unfold WfInput; decide) (by decide)).2 0 0 (by decide) (by decide)
    (by decide)

end ProcSim
